import Mathlib

/-!
# FunctionApproximatorRLS

A shallow embedding of `src/functionapproximators/FunctionApproximatorRLS.cpp`
(DmpBbo): training of one weighted least-squares line per kernel, the
kernel-blended prediction, and the export of the model over a grid.

Conventions of the embedding.

* `double` is idealised as `ℚ`: the arithmetic is exact, there is no rounding,
  no infinity and no NaN.
* An Eigen `MatrixXd` is a matrix whose numbers of rows and columns are run-time
  values (`MatrixXd` below).  Inside one computation, where the products of Eigen fix
  the sizes, matrices are Mathlib matrices over `Fin`.
* `train` and `predict` update the object they are called on; here they take the
  object and return the new one.
* The warnings written to `cerr` are not part of the state and are not modelled.
* `assert` and the size assertions of Eigen are taken to be enabled; a failed
  assertion is the result `Except.error`.
-/

namespace DmpBbo

open Matrix

/-! ## Matrices of run-time size -/

/-- Eigen `MatrixXd` (and `VectorXd`, a matrix of one column): the numbers of
rows and columns are values, the coefficients are exact rationals. -/
structure MatrixXd where
  /-- The value of `rows()`. -/
  rows : ℕ
  /-- The value of `cols()`. -/
  cols : ℕ
  /-- The coefficients. -/
  coeff : Matrix (Fin rows) (Fin cols) ℚ

namespace MatrixXd

/-- Coefficient `(i, j)` of the matrix, when it has one. -/
def get? (M : MatrixXd) (i j : ℕ) : Option ℚ :=
  if h : i < M.rows ∧ j < M.cols then some (M.coeff ⟨i, h.1⟩ ⟨j, h.2⟩) else none

/-- Eigen `M.row(r)`, as a matrix of one row. -/
def row (M : MatrixXd) (r : Fin M.rows) : MatrixXd :=
  ⟨1, M.cols, fun _ j => M.coeff r j⟩

/-- Eigen `MatrixXd(r, c)`: a fresh matrix of the given size.  Eigen leaves the
coefficients uninitialised; they are zero here. -/
def sized (r c : ℕ) : MatrixXd :=
  ⟨r, c, 0⟩

/-- Eigen `(A.array() * B.array()).rowwise().sum()` for two matrices of one
size: a column holding, for each row, the sum of the coefficient-wise products. -/
def rowwiseProductSum {T K : ℕ} (A B : Matrix (Fin T) (Fin K) ℚ) : MatrixXd :=
  ⟨T, 1, fun t _ => ∑ k, A t k * B t k⟩

end MatrixXd

/-- Eigen `A.inverse()` for a square matrix.  On an invertible matrix this is
the inverse.  On a singular matrix Eigen raises no error and returns unspecified
coefficients; the cofactor formula used here then returns the zero matrix. -/
def inverse {p : ℕ} (A : Matrix (Fin p) (Fin p) ℚ) : Matrix (Fin p) (Fin p) ℚ :=
  (A.det)⁻¹ • A.adjugate

/-! ## The state of the approximator -/

/-- The arguments of the constructor call
`ModelParametersRLS(centers,widths,slopes,offsets,asym_kernels)` of line 202.
The class itself is declared in `ModelParametersRLS.hpp`. -/
structure ModelParametersRLS where
  /-- Kernel centers. -/
  centers : MatrixXd
  /-- Kernel widths. -/
  widths : MatrixXd
  /-- One row of slopes per kernel. -/
  slopes : MatrixXd
  /-- One offset per kernel, a single column. -/
  offsets : MatrixXd
  /-- Whether the kernels are asymmetric. -/
  asym_kernels : Bool

/-- What `train` and `predict` read from the meta-parameters and from the base
class: `regularization()`, `use_offset()`, and the dimensions returned by
`getExpectedInputDim()` and `getExpectedOutputDim()`. -/
structure MetaParametersRLS where
  /-- The value of `getExpectedInputDim()`. -/
  expected_input_dim : ℕ
  /-- The value of `getExpectedOutputDim()`. -/
  expected_output_dim : ℕ
  /-- The value of `regularization()`; `train` reads it and does not use it. -/
  regularization : ℚ
  /-- The value of `use_offset()`. -/
  use_offset : Bool

/-- The object `FunctionApproximatorRLS`: its meta-parameters, its model
parameters (absent until trained) and the four scratch buffers of `predict`. -/
structure FunctionApproximatorRLS where
  /-- The meta-parameters. -/
  meta_parameters : MetaParametersRLS
  /-- The model parameters; `none` is the null pointer of an untrained object. -/
  model_parameters : Option ModelParametersRLS
  /-- Buffer of the single-sample path. -/
  lines_one_prealloc_ : MatrixXd
  /-- Buffer of the single-sample path. -/
  activations_one_prealloc_ : MatrixXd
  /-- Buffer of the batch path. -/
  lines_prealloc_ : MatrixXd
  /-- Buffer of the batch path. -/
  activations_prealloc_ : MatrixXd

namespace FunctionApproximatorRLS

/-- Modelled from the spec: `isTrained()` of the base class `FunctionApproximator`
(outside the source file), "false until a Local Line Model exists". -/
def isTrained (fa : FunctionApproximatorRLS) : Bool :=
  fa.model_parameters.isSome

/-- Modelled from the spec: `setModelParameters` of the base class installs the
model, after which the approximator is trained. -/
def setModelParameters (fa : FunctionApproximatorRLS) (mp : ModelParametersRLS) :
    FunctionApproximatorRLS :=
  { fa with model_parameters := some mp }

/-- The body of `preallocateMemory` (lines 67-74): the four buffers become
fresh matrices of one row and `n_basis_functions` columns. -/
def preallocateMemory (fa : FunctionApproximatorRLS) (n_basis_functions : ℕ) :
    FunctionApproximatorRLS :=
  { fa with
    lines_one_prealloc_ := MatrixXd.sized 1 n_basis_functions
    activations_one_prealloc_ := MatrixXd.sized 1 n_basis_functions
    lines_prealloc_ := MatrixXd.sized 1 n_basis_functions
    activations_prealloc_ := MatrixXd.sized 1 n_basis_functions }

end FunctionApproximatorRLS

/-- The ways in which a call stops without returning. -/
inductive Fault where
  /-- One of the two `assert`s of `train` (lines 97-98) failed. -/
  | assertion
  /-- A size assertion inside Eigen failed. -/
  | eigenAssertion
  deriving DecidableEq, Repr

/-! ## train -/

/-- The names that `train` uses and never declares: `n_kernels`, `epsilon`,
`activations`, `centers`, `widths`, `asym_kernels`.  They are parameters here;
`activations` has one row per training sample and one column per kernel. -/
structure KernelData (n_samples : ℕ) where
  /-- The number of kernels. -/
  n_kernels : ℕ
  /-- The pruning threshold. -/
  epsilon : ℚ
  /-- The activation of every kernel at every training sample. -/
  activations : Matrix (Fin n_samples) (Fin n_kernels) ℚ
  /-- Kernel centers, handed to the model unchanged. -/
  centers : MatrixXd
  /-- Kernel widths, handed to the model unchanged. -/
  widths : MatrixXd
  /-- Kernel asymmetry, handed to the model unchanged. -/
  asym_kernels : Bool

/-- Lines 112-113: `Ones(inputs.rows(), inputs.cols()+1)` whose left columns are
then overwritten with `inputs`. -/
def designWithOffset {N D : ℕ} (inputs : Matrix (Fin N) (Fin D) ℚ) :
    Matrix (Fin N) (Fin (D + 1)) ℚ :=
  fun i j => if h : j.val < D then inputs i ⟨j.val, h⟩ else 1

/-- The expression of lines 143 and 190:
`(X.transpose()*W*X).inverse()*X.transpose()*W*targets` with `W` the diagonal
matrix of the weights. -/
def weightedSolve {n p : ℕ} (X : Matrix (Fin n) (Fin p) ℚ) (W_vec : Fin n → ℚ)
    (targets : Matrix (Fin n) (Fin 1) ℚ) : Matrix (Fin p) (Fin 1) ℚ :=
  let W := Matrix.diagonal W_vec
  inverse (Xᵀ * W * X) * Xᵀ * W * targets

/-- Line 167: 1 where `W_vec >= epsilon`, 0 elsewhere. -/
def large_enough {n : ℕ} (epsilon : ℚ) (W_vec : Fin n → ℚ) : Fin n → ℤ :=
  fun i => if W_vec i ≥ epsilon then 1 else 0

/-- Line 170: `large_enough.sum()`. -/
def n_samples_sub {n : ℕ} (epsilon : ℚ) (W_vec : Fin n → ℚ) : ℕ :=
  (∑ i, large_enough epsilon W_vec i).toNat

/-- The variables of the compaction loop (lines 173-186): the write position
`jj` and the three buffers being filled, addressed by row number. -/
structure SubBuffers (p q : ℕ) where
  /-- The next row to write. -/
  jj : ℕ
  /-- The kept weights. -/
  W_vec_sub : ℕ → ℚ
  /-- The kept rows of the design matrix. -/
  X_sub : ℕ → Fin p → ℚ
  /-- The kept rows of the targets. -/
  targets_sub : ℕ → Fin q → ℚ

/-- One iteration of the loop of lines 177-186, for the row `ii`. -/
def compactStep {n p q : ℕ} (epsilon : ℚ) (W_vec : Fin n → ℚ)
    (X : Matrix (Fin n) (Fin p) ℚ) (targets : Matrix (Fin n) (Fin q) ℚ)
    (s : SubBuffers p q) (ii : Fin n) : SubBuffers p q :=
  if large_enough epsilon W_vec ii = 1 then
    { jj := s.jj + 1
      W_vec_sub := Function.update s.W_vec_sub s.jj (W_vec ii)
      X_sub := Function.update s.X_sub s.jj (X ii)
      targets_sub := Function.update s.targets_sub s.jj (targets ii) }
  else s

/-- The loop of lines 176-186: `ii` runs over all rows in order, starting from
`jj = 0`.  Eigen leaves the fresh buffers uninitialised and gives them
`n_samples_sub` rows; here they start as zero and only the rows below
`n_samples_sub` are read afterwards. -/
def compact {n p q : ℕ} (epsilon : ℚ) (W_vec : Fin n → ℚ)
    (X : Matrix (Fin n) (Fin p) ℚ) (targets : Matrix (Fin n) (Fin q) ℚ) : SubBuffers p q :=
  (List.finRange n).foldl (compactStep epsilon W_vec X targets)
    ⟨0, fun _ => 0, fun _ _ => 0, fun _ _ => 0⟩

/-- Lines 173-175 after the loop: `W_vec_sub`, of size `n_samples_sub`. -/
def W_vec_sub {n p q : ℕ} (epsilon : ℚ) (W_vec : Fin n → ℚ)
    (X : Matrix (Fin n) (Fin p) ℚ) (targets : Matrix (Fin n) (Fin q) ℚ) :
    Fin (n_samples_sub epsilon W_vec) → ℚ :=
  fun j => (compact epsilon W_vec X targets).W_vec_sub j

/-- Lines 173-175 after the loop: `X_sub`, with `n_samples_sub` rows. -/
def X_sub {n p q : ℕ} (epsilon : ℚ) (W_vec : Fin n → ℚ)
    (X : Matrix (Fin n) (Fin p) ℚ) (targets : Matrix (Fin n) (Fin q) ℚ) :
    Matrix (Fin (n_samples_sub epsilon W_vec)) (Fin p) ℚ :=
  fun j c => (compact epsilon W_vec X targets).X_sub j c

/-- Lines 173-175 after the loop: `targets_sub`, with `n_samples_sub` rows. -/
def targets_sub {n p q : ℕ} (epsilon : ℚ) (W_vec : Fin n → ℚ)
    (X : Matrix (Fin n) (Fin p) ℚ) (targets : Matrix (Fin n) (Fin q) ℚ) :
    Matrix (Fin (n_samples_sub epsilon W_vec)) (Fin q) ℚ :=
  fun j c => (compact epsilon W_vec X targets).targets_sub j c

/-- The dense path, lines 136-144: `cur_beta` from all the data. -/
def cur_beta {n p : ℕ} (X : Matrix (Fin n) (Fin p) ℚ) (targets : Matrix (Fin n) (Fin 1) ℚ)
    (W_vec : Fin n → ℚ) : Fin p → ℚ :=
  fun j => weightedSolve X W_vec targets j 0

/-- The pruned path, lines 166-196: `cur_beta_sub` from the kept rows. -/
def cur_beta_sub {n p : ℕ} (epsilon : ℚ) (X : Matrix (Fin n) (Fin p) ℚ)
    (targets : Matrix (Fin n) (Fin 1) ℚ) (W_vec : Fin n → ℚ) : Fin p → ℚ :=
  fun j => weightedSolve (X_sub epsilon W_vec X targets) (W_vec_sub epsilon W_vec X targets)
    (targets_sub epsilon W_vec X targets) j 0

/-- The body of the loop over kernels, lines 132-197: the row of `beta` for a
kernel whose activations are `W_vec`. -/
def fitKernel {n p : ℕ} (epsilon : ℚ) (X : Matrix (Fin n) (Fin p) ℚ)
    (targets : Matrix (Fin n) (Fin 1) ℚ) (W_vec : Fin n → ℚ) : Fin p → ℚ :=
  if epsilon = 0 then cur_beta X targets W_vec
  else cur_beta_sub epsilon X targets W_vec

/-- The matrix that `fitKernel` inverts: the weighted normal matrix of all the data on the dense
path, of the kept rows on the pruned path. -/
def normalMatrix {n p : ℕ} (epsilon : ℚ) (X : Matrix (Fin n) (Fin p) ℚ)
    (targets : Matrix (Fin n) (Fin 1) ℚ) (W_vec : Fin n → ℚ) : Matrix (Fin p) (Fin p) ℚ :=
  if epsilon = 0 then Xᵀ * Matrix.diagonal W_vec * X
  else (X_sub epsilon W_vec X targets)ᵀ * Matrix.diagonal (W_vec_sub epsilon W_vec X targets)
    * X_sub epsilon W_vec X targets

/-- The single column that `VectorXd cur_beta = ... * targets` requires of
`targets`. -/
def targetColumn {n q : ℕ} (targets : Matrix (Fin n) (Fin q) ℚ) : Matrix (Fin n) (Fin 1) ℚ :=
  fun i _ => if h : 0 < q then targets i ⟨0, h⟩ else 0

/-- Lines 126-198: the matrix `beta`, one fitted row per kernel. -/
def fitBeta {n p q : ℕ} (X : Matrix (Fin n) (Fin p) ℚ) (targets : Matrix (Fin n) (Fin q) ℚ)
    (kd : KernelData n) : Matrix (Fin kd.n_kernels) (Fin p) ℚ :=
  fun bb => fitKernel kd.epsilon X (targetColumn targets) (fun i => kd.activations i bb)

/-- Lines 126-204 of `train`, for the design matrix `X`.

Size assertions of Eigen: assigning the product to the `VectorXd cur_beta` and
then to `beta.row(bb)` requires `targets` to have exactly one column (checked
when the loop body runs, that is when there is a kernel), and
`beta.rightCols(1)` requires `beta` to have a column. -/
def trainWithDesign {n p q : ℕ} (fa : FunctionApproximatorRLS)
    (X : Matrix (Fin n) (Fin p) ℚ) (targets : Matrix (Fin n) (Fin q) ℚ)
    (kd : KernelData n) : Except Fault FunctionApproximatorRLS :=
  let n_betas := p
  if 0 < kd.n_kernels ∧ q ≠ 1 then Except.error Fault.eigenAssertion
  else if h : n_betas = 0 then Except.error Fault.eigenAssertion
  else
    let beta := fitBeta X targets kd
    let offsets : MatrixXd :=
      ⟨kd.n_kernels, 1,
        fun k _ => beta k ⟨n_betas - 1, Nat.sub_lt (Nat.pos_of_ne_zero h) Nat.one_pos⟩⟩
    let slopes : MatrixXd :=
      ⟨kd.n_kernels, n_betas - 1,
        fun k j => beta k ⟨j.val, lt_of_lt_of_le j.isLt (Nat.sub_le _ _)⟩⟩
    Except.ok ((fa.setModelParameters
      ⟨kd.centers, kd.widths, slopes, offsets, kd.asym_kernels⟩).preallocateMemory kd.n_kernels)

/-- The function `FunctionApproximatorRLS::train`, lines 88-205. -/
def train (fa : FunctionApproximatorRLS) (inputs targets : MatrixXd)
    (kd : KernelData inputs.rows) : Except Fault FunctionApproximatorRLS :=
  if fa.isTrained then Except.ok fa
  else if hrows : inputs.rows = targets.rows then
    if inputs.cols = fa.meta_parameters.expected_input_dim then
      let targetsN : Matrix (Fin inputs.rows) (Fin targets.cols) ℚ :=
        fun i j => targets.coeff (Fin.cast hrows i) j
      if fa.meta_parameters.use_offset then
        trainWithDesign fa (designWithOffset inputs.coeff) targetsN kd
      else
        trainWithDesign fa inputs.coeff targetsN kd
    else Except.error Fault.assertion
  else Except.error Fault.assertion

/-! ## predict -/

/-- The member functions of `ModelParametersRLS` that `predict` and
`saveGridData` call.  They are declared in `ModelParametersRLS.hpp`, so they are
parameters here; each fills a matrix with one row per input row and one column
per basis function. -/
structure ModelOps where
  /-- The value of `getNumberOfBasisFunctions()`. -/
  getNumberOfBasisFunctions : ModelParametersRLS → ℕ
  /-- The matrix filled by `getLines(inputs, lines)`. -/
  getLines : (mp : ModelParametersRLS) → (inputs : MatrixXd) →
    Matrix (Fin inputs.rows) (Fin (getNumberOfBasisFunctions mp)) ℚ
  /-- The matrix filled by `kernelActivations(inputs, activations)`. -/
  kernelActivations : (mp : ModelParametersRLS) → (inputs : MatrixXd) →
    Matrix (Fin inputs.rows) (Fin (getNumberOfBasisFunctions mp)) ℚ
  /-- The matrix filled by `unnormalizedKernelActivations(inputs, activations)`. -/
  unnormalizedKernelActivations : (mp : ModelParametersRLS) → (inputs : MatrixXd) →
    Matrix (Fin inputs.rows) (Fin (getNumberOfBasisFunctions mp)) ℚ

/-- The function `FunctionApproximatorRLS::predict`, lines 207-285.  It takes
the object and the `outputs` of the caller and returns both as the call leaves them. -/
def predict (ops : ModelOps) (fa : FunctionApproximatorRLS) (inputs outputs : MatrixXd) :
    FunctionApproximatorRLS × MatrixXd :=
  match fa.model_parameters with
  | none => (fa, outputs)
  | some model_parameters_lwr =>
    let only_one_sample : Bool := decide (inputs.rows = 1)
    if only_one_sample then
      let lines := ops.getLines model_parameters_lwr inputs
      let activations := ops.kernelActivations model_parameters_lwr inputs
      ({ fa with
          lines_one_prealloc_ := ⟨_, _, lines⟩
          activations_one_prealloc_ := ⟨_, _, activations⟩ },
        MatrixXd.rowwiseProductSum lines activations)
    else
      let n_time_steps := inputs.rows
      let n_basis_functions := ops.getNumberOfBasisFunctions model_parameters_lwr
      let _lines_resized := MatrixXd.sized n_time_steps n_basis_functions
      let _activations_resized := MatrixXd.sized n_time_steps n_basis_functions
      let _outputs_resized := MatrixXd.sized n_time_steps fa.meta_parameters.expected_output_dim
      let lines := ops.getLines model_parameters_lwr inputs
      let activations := ops.kernelActivations model_parameters_lwr inputs
      ({ fa with
          lines_prealloc_ := ⟨_, _, lines⟩
          activations_prealloc_ := ⟨_, _, activations⟩ },
        MatrixXd.rowwiseProductSum lines activations)

/-- Modelled from the spec: `getLines` of the Local Line Model, which "stores,
per kernel, a slope vector and offset scalar; given inputs, evaluates the affine
line value per kernel".  The value for input row `t` and kernel `k`:
`slopes.row(k) . inputs.row(t) + offsets(k)`, a coefficient that a matrix does
not have counting as zero. -/
def lineValue (mp : ModelParametersRLS) (inputs : MatrixXd) (t k : ℕ) : ℚ :=
  (∑ j in Finset.range mp.slopes.cols,
      ((mp.slopes.get? k j).getD 0) * ((inputs.get? t j).getD 0))
    + (mp.offsets.get? k 0).getD 0

/-- A provider for the examples: as many basis functions as the model has rows
of slopes, the lines of `lineValue`, and every kernel equally active (the
activations of a row sum to one as soon as there is a kernel). -/
def uniformOps : ModelOps where
  getNumberOfBasisFunctions := fun mp => mp.slopes.rows
  getLines := fun mp inputs t k => lineValue mp inputs t k
  kernelActivations := fun mp _ _ _ => (mp.slopes.rows : ℚ)⁻¹
  unnormalizedKernelActivations := fun _ _ _ _ => 1

/-! ## The design matrix as a value -/

/-- Lines 108-118: the matrix `X` that `train` builds from `inputs`, as a matrix
of run-time size. -/
def designMatrix (use_offset : Bool) (inputs : MatrixXd) : MatrixXd :=
  if use_offset then ⟨inputs.rows, inputs.cols + 1, designWithOffset inputs.coeff⟩
  else inputs

/-- Line 126: `n_betas = X.cols()`. -/
def n_betas (use_offset : Bool) (inputs : MatrixXd) : ℕ :=
  (designMatrix use_offset inputs).cols

/-! ## saveGridData -/

/-- What a call of the function template `saveMatrix` is given to write: the
integer vector `n_samples_per_dim` or a matrix of doubles. -/
inductive SavedData where
  /-- An Eigen `VectorXi`. -/
  | integers (v : List ℤ)
  /-- An Eigen `MatrixXd`. -/
  | reals (M : MatrixXd)

/-- One call of `saveMatrix`: its four arguments and the value it returned. -/
structure SaveCall where
  /-- The directory argument. -/
  directory : String
  /-- The file name argument. -/
  filename : String
  /-- The matrix argument. -/
  matrix : SavedData
  /-- The overwrite flag. -/
  overwrite : Bool
  /-- The value the call returned. -/
  returned : Bool

/-- The functions that `saveGridData` calls and that live outside this file:
`FunctionApproximator::generateInputsGrid` and `saveMatrix` of `EigenFileIO.hpp`.
They are parameters.  `saveMatrix` acts on the file system, of type `σ`, and
returns whether the write succeeded. -/
structure GridEnv (σ : Type) where
  /-- The matrix that `generateInputsGrid(min, max, n_samples_per_dim, inputs)`
  stores in `inputs`. -/
  generateInputsGrid : MatrixXd → MatrixXd → List ℤ → MatrixXd
  /-- The call `saveMatrix(directory, filename, matrix, overwrite)`. -/
  saveMatrix : String → String → SavedData → Bool → σ → Bool × σ

/-- What a call of `saveGridData` leaves behind: the value it returned, the file
system after it, and the calls of `saveMatrix` it made, in order. -/
structure GridSaved (σ : Type) where
  /-- The returned value. -/
  returned : Bool
  /-- The file system after the call. -/
  world : σ
  /-- The calls of `saveMatrix`, first call first. -/
  calls : List SaveCall

/-- One call of `saveMatrix` inside `saveGridData`: the file system after it and
the record of the call. -/
def saveCall {σ : Type} (env : GridEnv σ) (directory filename : String) (matrix : SavedData)
    (overwrite : Bool) (world : σ) : σ × SaveCall :=
  let r := env.saveMatrix directory filename matrix overwrite world
  (r.2, ⟨directory, filename, matrix, overwrite, r.1⟩)

/-- The function `FunctionApproximatorRLS::saveGridData`, lines 287-321.  The
vectors `min` and `max` are matrices of one column.  On an approximator without
model parameters the member calls go through a null pointer, which is undefined
behaviour: the result is then `none`. -/
def saveGridData {σ : Type} (env : GridEnv σ) (ops : ModelOps) (fa : FunctionApproximatorRLS)
    (min max : MatrixXd) (n_samples_per_dim : List ℤ) (save_directory : String)
    (overwrite : Bool) (world : σ) : Option (GridSaved σ) :=
  if save_directory = "" then some ⟨true, world, []⟩
  else
    let inputs := env.generateInputsGrid min max n_samples_per_dim
    match fa.model_parameters with
    | none => none
    | some model_parameters_lwr =>
      let lines : MatrixXd := ⟨_, _, ops.getLines model_parameters_lwr inputs⟩
      let unnormalized_activations : MatrixXd :=
        ⟨_, _, ops.unnormalizedKernelActivations model_parameters_lwr inputs⟩
      let activations : MatrixXd := ⟨_, _, ops.kernelActivations model_parameters_lwr inputs⟩
      let predictions := MatrixXd.rowwiseProductSum
        (ops.getLines model_parameters_lwr inputs)
        (ops.kernelActivations model_parameters_lwr inputs)
      let s1 := saveCall env save_directory "n_samples_per_dim.txt"
        (SavedData.integers n_samples_per_dim) overwrite world
      let s2 := saveCall env save_directory "inputs_grid.txt"
        (SavedData.reals inputs) overwrite s1.1
      let s3 := saveCall env save_directory "lines_grid.txt"
        (SavedData.reals lines) overwrite s2.1
      let s4 := saveCall env save_directory "activations_unnormalized_grid.txt"
        (SavedData.reals unnormalized_activations) overwrite s3.1
      let s5 := saveCall env save_directory "activations_grid.txt"
        (SavedData.reals activations) overwrite s4.1
      let s6 := saveCall env save_directory "predictions_grid.txt"
        (SavedData.reals predictions) overwrite s5.1
      some ⟨true, s6.1, [s1.2, s2.2, s3.2, s4.2, s5.2, s6.2]⟩

/-! ## The weighted squared error -/

/-- The weighted squared error of the coefficient vector `beta`:
the sum over the samples `i` of `w i * (X.row(i) . beta - y i)^2`. -/
def weightedSquaredError {n p : ℕ} (X : Matrix (Fin n) (Fin p) ℚ) (W_vec : Fin n → ℚ)
    (targets : Matrix (Fin n) (Fin 1) ℚ) (beta : Fin p → ℚ) : ℚ :=
  ∑ i, W_vec i * ((∑ j, X i j * beta j) - targets i 0) ^ 2

/-! ## Auxiliary definitions for the proofs -/

/-- The rows among `l` whose weight reaches the threshold, in the order of `l`. -/
def keptRows {n : ℕ} (epsilon : ℚ) (W_vec : Fin n → ℚ) (l : List (Fin n)) : List (Fin n) :=
  l.filter (fun i => decide (epsilon ≤ W_vec i))

/-- What a buffer holds at row `m` once the values of the rows of `l` were
written from position `jj` on: the value of the row of `l` number `m - jj` when
there is one, and the old content elsewhere. -/
def written {ι α : Type} (val : ι → α) (l : List ι) (jj : ℕ) (old : ℕ → α) (m : ℕ) : α :=
  if jj ≤ m then ((l[m - jj]?).map val).getD (old m) else old m

/-- The column of coefficients of the affine map `x ↦ a . x + b`, in the layout
of a design matrix with offset: the slopes, then the offset. -/
def affineColumn {D : ℕ} (a : Fin D → ℚ) (b : ℚ) : Matrix (Fin (D + 1)) (Fin 1) ℚ :=
  fun j _ => if h : j.val < D then a ⟨j.val, h⟩ else b

/-! ## Example data -/

/-- An untrained approximator with the given offset switch and input dimension. -/
def untrainedExample (use_offset : Bool) (D : ℕ) : FunctionApproximatorRLS :=
  ⟨⟨D, 1, 0, use_offset⟩, none, MatrixXd.sized 0 0, MatrixXd.sized 0 0, MatrixXd.sized 0 0,
    MatrixXd.sized 0 0⟩

/-- A model of one kernel on a one-dimensional input: slope 2, offset 0. -/
def exampleModel : ModelParametersRLS :=
  ⟨MatrixXd.sized 1 1, MatrixXd.sized 1 1, ⟨1, 1, !![2]⟩, ⟨1, 1, !![0]⟩, false⟩

/-- A trained approximator holding `exampleModel`. -/
def trainedExample : FunctionApproximatorRLS :=
  ((untrainedExample true 1).setModelParameters exampleModel).preallocateMemory 1

/-- One kernel that gives every one of the `n` samples the same weight. -/
def oneKernel (n : ℕ) (epsilon weight : ℚ) : KernelData n :=
  ⟨1, epsilon, fun _ _ => weight, MatrixXd.sized 1 1, MatrixXd.sized 1 1, false⟩

/-- The inputs 0, 1, 2, 3 of the end-to-end scenario. -/
def inputs4 : Matrix (Fin 4) (Fin 1) ℚ := !![0; 1; 2; 3]

/-- The targets 0, 2, 4, 6 of the end-to-end scenario. -/
def targets4 : Matrix (Fin 4) (Fin 1) ℚ := !![0; 2; 4; 6]

/-- Three inputs to predict at. -/
def inputs3 : Matrix (Fin 3) (Fin 1) ℚ := !![5; 6; 7]

/-- Two inputs, 1 and 2. -/
def inputs2 : Matrix (Fin 2) (Fin 1) ℚ := !![1; 2]

/-- Two targets, 2 and 4. -/
def targets2 : Matrix (Fin 2) (Fin 1) ℚ := !![2; 4]

/-- The weights of the pruning example in the comment of lines 151-161. -/
def W7 : Fin 7 → ℚ := ![1/1000, 1/100, 1/2, 49/50, 23/50, 1/100, 1/1000]

/-- The design matrix of the pruning example. -/
def X7 : Matrix (Fin 7) (Fin 2) ℚ :=
  !![0, 1; 1/10, 1; 1/5, 1; 3/10, 1; 2/5, 1; 1/2, 1; 3/5, 1]

/-- The targets of the pruning example. -/
def T7 : Matrix (Fin 7) (Fin 1) ℚ := !![1; 1/2; 2/5; 1/2; 3/5; 7/10; 4/5]

/-- Four weights, two of them zero. -/
def W4 : Fin 4 → ℚ := ![0, 1, 1, 0]

/-- A model of two kernels on a one-dimensional input: the lines `x` and
`3 x + 1`. -/
def twoKernelModel : ModelParametersRLS :=
  ⟨MatrixXd.sized 2 1, MatrixXd.sized 2 1, ⟨2, 1, !![1; 3]⟩, ⟨2, 1, !![0; 1]⟩, false⟩

/-- A trained approximator holding `twoKernelModel`. -/
def trainedTwoKernels : FunctionApproximatorRLS :=
  ((untrainedExample true 1).setModelParameters twoKernelModel).preallocateMemory 2

/-- A grid environment whose file system is the list of files written so far
and in which every write fails; the grid is `min` itself. -/
def failingEnv : GridEnv (List String) where
  generateInputsGrid := fun min _ _ => min
  saveMatrix := fun _ _ _ _ world => (false, world)

/-- A grid environment whose file system is the list of files written so far
and in which every write succeeds; the grid is `min` itself. -/
def recordingEnv : GridEnv (List String) where
  generateInputsGrid := fun min _ _ => min
  saveMatrix := fun _ filename _ _ world => (true, world ++ [filename])

/-! ## Lemmas on the compaction loop -/

section compaction

variable {n p q : ℕ} (epsilon : ℚ) (W_vec : Fin n → ℚ)
  (X : Matrix (Fin n) (Fin p) ℚ) (targets : Matrix (Fin n) (Fin q) ℚ)

theorem large_enough_eq_one_iff (i : Fin n) :
    large_enough epsilon W_vec i = 1 ↔ epsilon ≤ W_vec i := by
  unfold large_enough
  by_cases h : epsilon ≤ W_vec i <;> simp [h]

theorem compactStep_kept (s : SubBuffers p q) (ii : Fin n) (h : epsilon ≤ W_vec ii) :
    compactStep epsilon W_vec X targets s ii =
      { jj := s.jj + 1
        W_vec_sub := Function.update s.W_vec_sub s.jj (W_vec ii)
        X_sub := Function.update s.X_sub s.jj (X ii)
        targets_sub := Function.update s.targets_sub s.jj (targets ii) } := by
  unfold compactStep
  rw [if_pos ((large_enough_eq_one_iff epsilon W_vec ii).2 h)]

theorem compactStep_dropped (s : SubBuffers p q) (ii : Fin n) (h : ¬ epsilon ≤ W_vec ii) :
    compactStep epsilon W_vec X targets s ii = s := by
  unfold compactStep
  rw [if_neg (fun h1 => h ((large_enough_eq_one_iff epsilon W_vec ii).1 h1))]

theorem written_nil {ι α : Type} (val : ι → α) (jj : ℕ) (old : ℕ → α) (m : ℕ) :
    written val [] jj old m = old m := by
  simp [written]

theorem written_cons {ι α : Type} (val : ι → α) (a : ι) (l : List ι) (jj : ℕ) (old : ℕ → α)
    (m : ℕ) :
    written val l (jj + 1) (Function.update old jj (val a)) m = written val (a :: l) jj old m := by
  unfold written
  rcases Nat.lt_trichotomy m jj with h | h | h
  · have h1 : ¬ jj + 1 ≤ m := by omega
    have h2 : ¬ jj ≤ m := by omega
    have h3 : m ≠ jj := by omega
    simp [h1, h2, h3]
  · subst h
    simp
  · have h1 : jj + 1 ≤ m := by omega
    have h2 : jj ≤ m := by omega
    have h3 : m ≠ jj := by omega
    have h4 : m - jj = (m - (jj + 1)) + 1 := by omega
    rw [if_pos h1, if_pos h2, h4, List.getElem?_cons_succ, Function.update_noteq h3]

theorem written_of_getElem? {ι α : Type} (val : ι → α) (l : List ι) (old : ℕ → α) (m : ℕ)
    (i : ι) (h : l[m]? = some i) : written val l 0 old m = val i := by
  simp [written, h]

/-- The invariant of the compaction loop: after the rows of `l`, the position
has advanced by the number of kept rows and the buffers hold the kept rows, in
order, from the old position on. -/
theorem foldl_compactStep (l : List (Fin n)) (s : SubBuffers p q) :
    (l.foldl (compactStep epsilon W_vec X targets) s).jj =
        s.jj + (keptRows epsilon W_vec l).length ∧
    (∀ m, (l.foldl (compactStep epsilon W_vec X targets) s).W_vec_sub m =
        written W_vec (keptRows epsilon W_vec l) s.jj s.W_vec_sub m) ∧
    (∀ m, (l.foldl (compactStep epsilon W_vec X targets) s).X_sub m =
        written X (keptRows epsilon W_vec l) s.jj s.X_sub m) ∧
    (∀ m, (l.foldl (compactStep epsilon W_vec X targets) s).targets_sub m =
        written targets (keptRows epsilon W_vec l) s.jj s.targets_sub m) := by
  induction l generalizing s with
  | nil => simp [keptRows, written_nil]
  | cons ii l ih =>
    rw [List.foldl_cons]
    by_cases h : epsilon ≤ W_vec ii
    · have hk : keptRows epsilon W_vec (ii :: l) = ii :: keptRows epsilon W_vec l := by
        simp [keptRows, h]
      rw [compactStep_kept epsilon W_vec X targets s ii h, hk]
      obtain ⟨h1, h2, h3, h4⟩ := ih
        { jj := s.jj + 1
          W_vec_sub := Function.update s.W_vec_sub s.jj (W_vec ii)
          X_sub := Function.update s.X_sub s.jj (X ii)
          targets_sub := Function.update s.targets_sub s.jj (targets ii) }
      refine ⟨?_, ?_, ?_, ?_⟩
      · rw [h1, List.length_cons]; simp only []; omega
      · intro m; rw [h2, written_cons]
      · intro m; rw [h3, written_cons]
      · intro m; rw [h4, written_cons]
    · have hk : keptRows epsilon W_vec (ii :: l) = keptRows epsilon W_vec l := by
        simp [keptRows, h]
      rw [compactStep_dropped epsilon W_vec X targets s ii h, hk]
      exact ih s

theorem compact_eq_written (m : ℕ) :
    (compact epsilon W_vec X targets).W_vec_sub m =
        written W_vec (keptRows epsilon W_vec (List.finRange n)) 0 (fun _ => 0) m ∧
    (compact epsilon W_vec X targets).X_sub m =
        written X (keptRows epsilon W_vec (List.finRange n)) 0 (fun _ _ => 0) m ∧
    (compact epsilon W_vec X targets).targets_sub m =
        written targets (keptRows epsilon W_vec (List.finRange n)) 0 (fun _ _ => 0) m := by
  obtain ⟨_, h2, h3, h4⟩ := foldl_compactStep epsilon W_vec X targets (List.finRange n)
    ⟨0, fun _ => 0, fun _ _ => 0, fun _ _ => 0⟩
  exact ⟨h2 m, h3 m, h4 m⟩

theorem sum_large_enough (l : List (Fin n)) :
    (l.map (large_enough epsilon W_vec)).sum = ((keptRows epsilon W_vec l).length : ℤ) := by
  induction l with
  | nil => simp [keptRows]
  | cons ii l ih =>
    rw [List.map_cons, List.sum_cons, ih]
    by_cases h : epsilon ≤ W_vec ii
    · simp [keptRows, h, large_enough]; ring
    · simp [keptRows, h, large_enough]

theorem n_samples_sub_eq :
    n_samples_sub epsilon W_vec = (keptRows epsilon W_vec (List.finRange n)).length := by
  unfold n_samples_sub
  rw [Fin.sum_univ_def, sum_large_enough]
  exact Int.toNat_natCast _

/-- Row `j` of the sub-system is a copy of the row of the full system that
stands at place `j` among the kept rows. -/
theorem compact_row (j : Fin (n_samples_sub epsilon W_vec)) :
    ∃ i : Fin n, (keptRows epsilon W_vec (List.finRange n))[j.val]? = some i ∧
      W_vec_sub epsilon W_vec X targets j = W_vec i ∧
      X_sub epsilon W_vec X targets j = X i ∧
      targets_sub epsilon W_vec X targets j = targets i := by
  have hj : j.val < (keptRows epsilon W_vec (List.finRange n)).length := by
    rw [← n_samples_sub_eq]; exact j.isLt
  have hi := List.getElem?_eq_getElem hj
  obtain ⟨h2, h3, h4⟩ := compact_eq_written epsilon W_vec X targets j.val
  refine ⟨_, hi, ?_, ?_, ?_⟩
  · unfold W_vec_sub
    rw [h2, written_of_getElem? _ _ _ _ _ hi]
  · funext c
    unfold X_sub
    rw [h3, written_of_getElem? _ _ _ _ _ hi]
  · funext c
    unfold targets_sub
    rw [h4, written_of_getElem? _ _ _ _ _ hi]

theorem keptRows_sorted :
    (keptRows epsilon W_vec (List.finRange n)).Sorted (fun a b => a < b) :=
  List.Sorted.filter _ (List.pairwise_lt_finRange n)

theorem mem_keptRows (i : Fin n) :
    i ∈ keptRows epsilon W_vec (List.finRange n) ↔ epsilon ≤ W_vec i := by
  simp [keptRows]

theorem keptRows_all (h : ∀ i, epsilon ≤ W_vec i) (l : List (Fin n)) :
    keptRows epsilon W_vec l = l := by
  unfold keptRows
  rw [List.filter_eq_self]
  intro i _
  simp [h i]

theorem keptRows_none (h : ∀ i, W_vec i < epsilon) (l : List (Fin n)) :
    keptRows epsilon W_vec l = [] := by
  unfold keptRows
  rw [List.filter_eq_nil_iff]
  intro i _
  simp [h i]

theorem n_samples_sub_all (h : ∀ i, epsilon ≤ W_vec i) : n_samples_sub epsilon W_vec = n := by
  rw [n_samples_sub_eq, keptRows_all epsilon W_vec h, List.length_finRange]

theorem n_samples_sub_none (h : ∀ i, W_vec i < epsilon) : n_samples_sub epsilon W_vec = 0 := by
  rw [n_samples_sub_eq, keptRows_none epsilon W_vec h, List.length_nil]

end compaction

/-! ## Lemmas on the solve -/

section solve

theorem inverse_eq_inv {p : ℕ} (A : Matrix (Fin p) (Fin p) ℚ) : inverse A = A⁻¹ := by
  simp [inverse, Matrix.inv_def, Ring.inverse_eq_inv']

theorem inverse_mul_self {p : ℕ} (A : Matrix (Fin p) (Fin p) ℚ) (h : A.det ≠ 0) :
    inverse A * A = 1 := by
  rw [inverse_eq_inv]
  exact Matrix.nonsing_inv_mul A (isUnit_iff_ne_zero.mpr h)

/-- Targets that are exactly linear in the design matrix are fitted exactly. -/
theorem weightedSolve_exact {n p : ℕ} (X : Matrix (Fin n) (Fin p) ℚ) (W_vec : Fin n → ℚ)
    (b : Matrix (Fin p) (Fin 1) ℚ) (h : (Xᵀ * Matrix.diagonal W_vec * X).det ≠ 0) :
    weightedSolve X W_vec (X * b) = b := by
  unfold weightedSolve
  simp only []
  rw [Matrix.mul_assoc (inverse _) Xᵀ, Matrix.mul_assoc (inverse _) (Xᵀ * _),
    ← Matrix.mul_assoc (Xᵀ * _) X b, ← Matrix.mul_assoc (inverse _), inverse_mul_self _ h,
    Matrix.one_mul]

/-- The solve depends on the system only, not on the type that numbers its rows. -/
theorem weightedSolve_congr {m n p : ℕ} (h : m = n)
    (X1 : Matrix (Fin m) (Fin p) ℚ) (X2 : Matrix (Fin n) (Fin p) ℚ)
    (w1 : Fin m → ℚ) (w2 : Fin n → ℚ)
    (y1 : Matrix (Fin m) (Fin 1) ℚ) (y2 : Matrix (Fin n) (Fin 1) ℚ)
    (hX : ∀ i, X1 i = X2 (Fin.cast h i)) (hw : ∀ i, w1 i = w2 (Fin.cast h i))
    (hy : ∀ i, y1 i = y2 (Fin.cast h i)) :
    weightedSolve X1 w1 y1 = weightedSolve X2 w2 y2 := by
  subst h
  have e1 : X1 = X2 := funext hX
  have e2 : w1 = w2 := funext hw
  have e3 : y1 = y2 := funext hy
  rw [e1, e2, e3]

/-- A system without rows is solved by the zero column. -/
theorem weightedSolve_of_no_rows {m p : ℕ} (h : m = 0)
    (X : Matrix (Fin m) (Fin p) ℚ) (w : Fin m → ℚ) (y : Matrix (Fin m) (Fin 1) ℚ) :
    weightedSolve X w y = 0 := by
  subst h
  funext i c
  unfold weightedSolve
  simp [Matrix.mul_apply]

variable {n p : ℕ} (epsilon : ℚ) (W_vec : Fin n → ℚ)
  (X : Matrix (Fin n) (Fin p) ℚ) (targets : Matrix (Fin n) (Fin 1) ℚ)

theorem compact_row_all (h : ∀ i, epsilon ≤ W_vec i) (j : Fin (n_samples_sub epsilon W_vec)) :
    W_vec_sub epsilon W_vec X targets j = W_vec (Fin.cast (n_samples_sub_all epsilon W_vec h) j) ∧
    X_sub epsilon W_vec X targets j = X (Fin.cast (n_samples_sub_all epsilon W_vec h) j) ∧
    targets_sub epsilon W_vec X targets j =
      targets (Fin.cast (n_samples_sub_all epsilon W_vec h) j) := by
  obtain ⟨i, hi, h1, h2, h3⟩ := compact_row epsilon W_vec X targets j
  have hi2 : i = Fin.cast (n_samples_sub_all epsilon W_vec h) j := by
    rw [keptRows_all epsilon W_vec h] at hi
    have hj : j.val < n := lt_of_lt_of_eq j.isLt (n_samples_sub_all epsilon W_vec h)
    rw [List.getElem?_eq_getElem (by simpa using hj)] at hi
    simp at hi
    exact Fin.ext (by rw [← hi]; rfl)
  rw [← hi2]
  exact ⟨h1, h2, h3⟩

theorem cur_beta_sub_eq_cur_beta (h : ∀ i, epsilon ≤ W_vec i) :
    cur_beta_sub epsilon X targets W_vec = cur_beta X targets W_vec := by
  unfold cur_beta_sub cur_beta
  rw [weightedSolve_congr (n_samples_sub_all epsilon W_vec h) _ X _ W_vec _ targets
    (fun i => (compact_row_all epsilon W_vec X targets h i).2.1)
    (fun i => (compact_row_all epsilon W_vec X targets h i).1)
    (fun i => (compact_row_all epsilon W_vec X targets h i).2.2)]

theorem targets_sub_mul (b : Matrix (Fin p) (Fin 1) ℚ) :
    targets_sub epsilon W_vec X (X * b) = X_sub epsilon W_vec X (X * b) * b := by
  funext j c
  obtain ⟨i, _, _, h2, h3⟩ := compact_row epsilon W_vec X (X * b) j
  rw [h3, Matrix.mul_apply, Matrix.mul_apply, h2]

/-- Targets that are exactly linear in the design matrix are fitted exactly by
either path, when the matrix that the path inverts is invertible. -/
theorem fitKernel_exact (b : Matrix (Fin p) (Fin 1) ℚ)
    (h : (normalMatrix epsilon X (X * b) W_vec).det ≠ 0) :
    fitKernel epsilon X (X * b) W_vec = fun j => b j 0 := by
  unfold fitKernel
  unfold normalMatrix at h
  by_cases h0 : epsilon = 0
  · rw [if_pos h0] at h ⊢
    unfold cur_beta
    rw [weightedSolve_exact X W_vec b h]
  · rw [if_neg h0] at h ⊢
    unfold cur_beta_sub
    rw [targets_sub_mul, weightedSolve_exact _ _ b h]

/-- On the pruned path, a kernel none of whose weights reaches the threshold
gets the zero row, and the matrix that was inverted for it is the zero matrix. -/
theorem fitKernel_of_none_kept (h0 : epsilon ≠ 0) (h : ∀ i, W_vec i < epsilon) :
    fitKernel epsilon X targets W_vec = 0 ∧ normalMatrix epsilon X targets W_vec = 0 := by
  have hn := n_samples_sub_none epsilon W_vec h
  constructor
  · unfold fitKernel
    rw [if_neg h0]
    unfold cur_beta_sub
    rw [weightedSolve_of_no_rows hn]
    rfl
  · unfold normalMatrix
    rw [if_neg h0]
    funext i c
    rw [Matrix.mul_apply]
    apply Finset.sum_eq_zero
    intro j _
    exact absurd (lt_of_lt_of_eq j.isLt hn) (Nat.not_lt_zero _)

end solve

/-! ## Lemmas on train and predict -/

section training

theorem targetColumn_one {n : ℕ} (Y : Matrix (Fin n) (Fin 1) ℚ) : targetColumn Y = Y := by
  funext i c
  have hc : c = ⟨0, Nat.one_pos⟩ := Subsingleton.elim _ _
  subst hc
  simp [targetColumn]

theorem train_untrained {N D q : ℕ} (fa : FunctionApproximatorRLS)
    (A : Matrix (Fin N) (Fin D) ℚ) (Y : Matrix (Fin N) (Fin q) ℚ) (kd : KernelData N)
    (hun : fa.isTrained = false) (hD : D = fa.meta_parameters.expected_input_dim) :
    train fa ⟨N, D, A⟩ ⟨N, q, Y⟩ kd =
      if fa.meta_parameters.use_offset then trainWithDesign fa (designWithOffset A) Y kd
      else trainWithDesign fa A Y kd := by
  unfold train
  simp only [hun, Bool.false_eq_true, if_false, dite_true, if_pos hD]
  rfl

/-- When the sizes pass every assertion, `trainWithDesign` returns and installs
the rows of `beta`, split before the last column. -/
theorem trainWithDesign_ok {n p q : ℕ} (fa : FunctionApproximatorRLS)
    (X : Matrix (Fin n) (Fin p) ℚ) (targets : Matrix (Fin n) (Fin q) ℚ) (kd : KernelData n)
    (hq : kd.n_kernels = 0 ∨ q = 1) (hp : p ≠ 0) :
    ∃ fa1 mp, trainWithDesign fa X targets kd = Except.ok fa1 ∧
      fa1.model_parameters = some mp ∧
      mp.slopes.rows = kd.n_kernels ∧ mp.slopes.cols = p - 1 ∧
      mp.offsets.rows = kd.n_kernels ∧ mp.offsets.cols = 1 ∧
      (∀ (k : Fin kd.n_kernels) (j : Fin p), j.val < p - 1 →
        mp.slopes.get? k j = some (fitBeta X targets kd k j)) ∧
      (∀ (k : Fin kd.n_kernels) (j : Fin p), j.val = p - 1 →
        mp.offsets.get? k 0 = some (fitBeta X targets kd k j)) := by
  have h1 : ¬ (0 < kd.n_kernels ∧ q ≠ 1) := by
    rintro ⟨h2, h3⟩
    rcases hq with h | h
    · omega
    · exact h3 h
  unfold trainWithDesign
  simp only []
  rw [if_neg h1, dif_neg hp]
  refine ⟨_, _, rfl, rfl, rfl, rfl, rfl, rfl, ?_, ?_⟩
  · intro k j hj
    simp [MatrixXd.get?, hj]
  · intro k j hj
    have hj2 : (⟨p - 1, Nat.sub_lt (Nat.pos_of_ne_zero hp) Nat.one_pos⟩ : Fin p) = j :=
      Fin.ext hj.symm
    simp [MatrixXd.get?, hj2]

/-- On a trained approximator both paths of `predict` return the row-wise sum of
the lines times the activations. -/
theorem predict_snd_of_trained (ops : ModelOps) (fa : FunctionApproximatorRLS)
    (mp : ModelParametersRLS) (hfa : fa.model_parameters = some mp)
    (inputs outputs : MatrixXd) :
    (predict ops fa inputs outputs).2 =
      MatrixXd.rowwiseProductSum (ops.getLines mp inputs) (ops.kernelActivations mp inputs) := by
  unfold predict
  rw [hfa]
  dsimp only
  split_ifs <;> rfl

theorem rowwiseProductSum_get {T K : ℕ} (A B : Matrix (Fin T) (Fin K) ℚ) (t : Fin T) :
    (MatrixXd.rowwiseProductSum A B).get? t 0 = some (∑ k, A t k * B t k) := by
  simp [MatrixXd.rowwiseProductSum, MatrixXd.get?]

end training

section sizes

/-- When a size assertion of Eigen fails, `trainWithDesign` stops there. -/
theorem trainWithDesign_error {n p q : ℕ} (fa : FunctionApproximatorRLS)
    (X : Matrix (Fin n) (Fin p) ℚ) (targets : Matrix (Fin n) (Fin q) ℚ) (kd : KernelData n)
    (h : ¬ ((kd.n_kernels = 0 ∨ q = 1) ∧ p ≠ 0)) :
    trainWithDesign fa X targets kd = Except.error Fault.eigenAssertion := by
  unfold trainWithDesign
  simp only []
  by_cases h1 : 0 < kd.n_kernels ∧ q ≠ 1
  · rw [if_pos h1]
  · rw [if_neg h1]
    have hp : p = 0 := by
      by_contra hp
      apply h
      refine ⟨?_, hp⟩
      by_cases hk : kd.n_kernels = 0
      · exact Or.inl hk
      · right
        by_contra hq
        exact h1 ⟨Nat.pos_of_ne_zero hk, hq⟩
    rw [dif_pos hp]

theorem isTrained_of_model {fa : FunctionApproximatorRLS} {mp : ModelParametersRLS}
    (h : fa.model_parameters = some mp) : fa.isTrained = true := by
  simp [FunctionApproximatorRLS.isTrained, h]

theorem W7_values : W7 0 = 1/1000 ∧ W7 1 = 1/100 ∧ W7 2 = 1/2 ∧ W7 3 = 49/50 ∧
    W7 4 = 23/50 ∧ W7 5 = 1/100 ∧ W7 6 = 1/1000 :=
  ⟨rfl, rfl, rfl, rfl, rfl, rfl, rfl⟩

theorem keptRows_W7 : keptRows (1/10) W7 (List.finRange 7) = [2, 3, 4] := by
  obtain ⟨h0, h1, h2, h3, h4, h5, h6⟩ := W7_values
  have hr : List.finRange 7 = [0, 1, 2, 3, 4, 5, 6] := by decide
  rw [hr]
  simp only [keptRows, List.filter, h0, h1, h2, h3, h4, h5, h6]
  norm_num

end sizes

/-! ## Lemmas on the normal equations -/

section normal

variable {n p : ℕ} (X : Matrix (Fin n) (Fin p) ℚ) (W_vec : Fin n → ℚ)

theorem normal_apply (a b : Fin p) :
    (Xᵀ * Matrix.diagonal W_vec * X) a b = ∑ i, X i a * W_vec i * X i b := by
  rw [Matrix.mul_apply]
  apply Finset.sum_congr rfl
  intro i _
  rw [Matrix.mul_diagonal, Matrix.transpose_apply]

theorem rhs_apply {q : ℕ} (Y : Matrix (Fin n) (Fin q) ℚ) (a : Fin p) (c : Fin q) :
    (Xᵀ * Matrix.diagonal W_vec * Y) a c = ∑ i, X i a * W_vec i * Y i c := by
  rw [Matrix.mul_apply]
  apply Finset.sum_congr rfl
  intro i _
  rw [Matrix.mul_diagonal, Matrix.transpose_apply]

theorem mul_inverse_self {p : ℕ} (A : Matrix (Fin p) (Fin p) ℚ) (h : A.det ≠ 0) :
    A * inverse A = 1 := by
  rw [inverse_eq_inv]
  exact Matrix.mul_nonsing_inv A (isUnit_iff_ne_zero.mpr h)

theorem weightedSolve_eq (targets : Matrix (Fin n) (Fin 1) ℚ) :
    weightedSolve X W_vec targets =
      inverse (Xᵀ * Matrix.diagonal W_vec * X) * (Xᵀ * Matrix.diagonal W_vec * targets) := by
  unfold weightedSolve
  simp only [Matrix.mul_assoc]

/-- The solve satisfies the normal equations, in matrix form. -/
theorem weightedSolve_normal (targets : Matrix (Fin n) (Fin 1) ℚ)
    (h : (Xᵀ * Matrix.diagonal W_vec * X).det ≠ 0) :
    (Xᵀ * Matrix.diagonal W_vec * X) * weightedSolve X W_vec targets =
      Xᵀ * Matrix.diagonal W_vec * targets := by
  rw [weightedSolve_eq, ← Matrix.mul_assoc, mul_inverse_self _ h, Matrix.one_mul]

/-- The normal equations, entry by entry: the weighted residual of the solve is
orthogonal to every column of the design matrix. -/
theorem cur_beta_residual_orthogonal (targets : Matrix (Fin n) (Fin 1) ℚ)
    (h : (Xᵀ * Matrix.diagonal W_vec * X).det ≠ 0) (j : Fin p) :
    ∑ i, X i j * W_vec i * ((∑ k, X i k * cur_beta X targets W_vec k) - targets i 0) = 0 := by
  have hn := congrFun (congrFun (weightedSolve_normal X W_vec targets h) j) 0
  rw [Matrix.mul_apply, rhs_apply] at hn
  simp only [normal_apply] at hn
  have h1 : ∀ i, X i j * W_vec i * ((∑ k, X i k * cur_beta X targets W_vec k) - targets i 0) =
      (∑ k, X i j * W_vec i * X i k * weightedSolve X W_vec targets k 0) -
        X i j * W_vec i * targets i 0 := by
    intro i
    rw [mul_sub, Finset.mul_sum]
    congr 1
    apply Finset.sum_congr rfl
    intro k _
    unfold cur_beta
    ring
  simp only [h1]
  rw [Finset.sum_sub_distrib, Finset.sum_comm, ← hn]
  simp only [Finset.sum_mul]
  exact sub_self _

/-- The weighted squared error at any `beta` is the error at the solve plus the
weighted square of the difference of the fitted values. -/
theorem weightedSquaredError_eq (targets : Matrix (Fin n) (Fin 1) ℚ)
    (h : (Xᵀ * Matrix.diagonal W_vec * X).det ≠ 0) (beta : Fin p → ℚ) :
    weightedSquaredError X W_vec targets beta =
      weightedSquaredError X W_vec targets (cur_beta X targets W_vec) +
        ∑ i, W_vec i * (∑ k, X i k * (beta k - cur_beta X targets W_vec k)) ^ 2 := by
  have hcross : ∑ i, W_vec i * ((∑ k, X i k * cur_beta X targets W_vec k) - targets i 0) *
      (∑ k, X i k * (beta k - cur_beta X targets W_vec k)) = 0 := by
    have h1 : ∀ i, W_vec i * ((∑ k, X i k * cur_beta X targets W_vec k) - targets i 0) *
        (∑ k, X i k * (beta k - cur_beta X targets W_vec k)) =
        ∑ k, (beta k - cur_beta X targets W_vec k) *
          (X i k * W_vec i * ((∑ k, X i k * cur_beta X targets W_vec k) - targets i 0)) := by
      intro i
      rw [Finset.mul_sum]
      apply Finset.sum_congr rfl
      intro k _
      ring
    simp only [h1]
    rw [Finset.sum_comm]
    apply Finset.sum_eq_zero
    intro k _
    rw [← Finset.mul_sum, cur_beta_residual_orthogonal X W_vec targets h k, mul_zero]
  have hsplit : ∀ i, W_vec i * ((∑ j, X i j * beta j) - targets i 0) ^ 2 =
      W_vec i * ((∑ k, X i k * cur_beta X targets W_vec k) - targets i 0) ^ 2 +
      2 * (W_vec i * ((∑ k, X i k * cur_beta X targets W_vec k) - targets i 0) *
        (∑ k, X i k * (beta k - cur_beta X targets W_vec k))) +
      W_vec i * (∑ k, X i k * (beta k - cur_beta X targets W_vec k)) ^ 2 := by
    intro i
    have hd : (∑ k, X i k * (beta k - cur_beta X targets W_vec k)) =
        (∑ j, X i j * beta j) - ∑ k, X i k * cur_beta X targets W_vec k := by
      rw [← Finset.sum_sub_distrib]
      apply Finset.sum_congr rfl
      intro k _
      ring
    rw [hd]
    ring
  unfold weightedSquaredError
  simp only [hsplit]
  rw [Finset.sum_add_distrib, Finset.sum_add_distrib, ← Finset.mul_sum, hcross]
  ring

end normal

/-! ## Lemmas on rescaled weights and on pruned zero weights -/

section rescale

variable {n p : ℕ} (X : Matrix (Fin n) (Fin p) ℚ) (W_vec : Fin n → ℚ)

theorem normal_rescaled (c : ℚ) :
    Xᵀ * Matrix.diagonal (fun i => c * W_vec i) * X =
      c • (Xᵀ * Matrix.diagonal W_vec * X) := by
  funext a b
  rw [Matrix.smul_apply, normal_apply, normal_apply, smul_eq_mul, Finset.mul_sum]
  apply Finset.sum_congr rfl
  intro i _
  ring

theorem rhs_rescaled {q : ℕ} (Y : Matrix (Fin n) (Fin q) ℚ) (c : ℚ) :
    Xᵀ * Matrix.diagonal (fun i => c * W_vec i) * Y =
      c • (Xᵀ * Matrix.diagonal W_vec * Y) := by
  funext a b
  rw [Matrix.smul_apply, rhs_apply, rhs_apply, smul_eq_mul, Finset.mul_sum]
  apply Finset.sum_congr rfl
  intro i _
  ring

/-- A column that satisfies the normal equations is the solve. -/
theorem weightedSolve_unique (targets : Matrix (Fin n) (Fin 1) ℚ)
    (h : (Xᵀ * Matrix.diagonal W_vec * X).det ≠ 0) (B : Matrix (Fin p) (Fin 1) ℚ)
    (hB : (Xᵀ * Matrix.diagonal W_vec * X) * B = Xᵀ * Matrix.diagonal W_vec * targets) :
    B = weightedSolve X W_vec targets := by
  rw [weightedSolve_eq, ← hB, ← Matrix.mul_assoc, inverse_mul_self _ h, Matrix.one_mul]

theorem weightedSolve_rescaled (targets : Matrix (Fin n) (Fin 1) ℚ) (c : ℚ) (hc : c ≠ 0)
    (h : (Xᵀ * Matrix.diagonal W_vec * X).det ≠ 0) :
    weightedSolve X (fun i => c * W_vec i) targets = weightedSolve X W_vec targets := by
  have hdet : (Xᵀ * Matrix.diagonal (fun i => c * W_vec i) * X).det ≠ 0 := by
    rw [normal_rescaled, Matrix.det_smul]
    exact mul_ne_zero (pow_ne_zero _ hc) h
  have hn := weightedSolve_normal X (fun i => c * W_vec i) targets hdet
  rw [normal_rescaled, rhs_rescaled, Matrix.smul_mul] at hn
  apply weightedSolve_unique X W_vec targets h
  exact smul_right_injective _ hc hn

end rescale

section zeroWeights

/-- A sum over the rows of the sub-system is the sum of the same term over the
kept rows of the full system. -/
theorem sum_fin_eq_sum_map {ι : Type} (l : List ι) {m : ℕ} (hm : m = l.length)
    (F : Fin m → ℚ) (f : ι → ℚ) (hF : ∀ j : Fin m, ∃ i, l[j.val]? = some i ∧ F j = f i) :
    ∑ j, F j = (l.map f).sum := by
  subst hm
  rw [← Fin.sum_univ_get' l f]
  apply Finset.sum_congr rfl
  intro j _
  obtain ⟨i, hi, hFi⟩ := hF j
  rw [List.getElem?_eq_getElem j.isLt] at hi
  rw [hFi, ← Option.some.inj hi]

theorem sum_map_keptRows {n : ℕ} (epsilon : ℚ) (W_vec : Fin n → ℚ) (f : Fin n → ℚ)
    (hz : ∀ i, ¬ epsilon ≤ W_vec i → f i = 0) (l : List (Fin n)) :
    ((keptRows epsilon W_vec l).map f).sum = (l.map f).sum := by
  induction l with
  | nil => rfl
  | cons i l ih =>
    by_cases h : epsilon ≤ W_vec i
    · have hk : keptRows epsilon W_vec (i :: l) = i :: keptRows epsilon W_vec l := by
        simp [keptRows, h]
      rw [hk, List.map_cons, List.sum_cons, List.map_cons, List.sum_cons, ih]
    · have hk : keptRows epsilon W_vec (i :: l) = keptRows epsilon W_vec l := by
        simp [keptRows, h]
      rw [hk, List.map_cons, List.sum_cons, ih, hz i h, zero_add]

variable {n p q : ℕ} (epsilon : ℚ) (W_vec : Fin n → ℚ)
  (X : Matrix (Fin n) (Fin p) ℚ) (targets : Matrix (Fin n) (Fin q) ℚ)

/-- A sum over the sub-system of a term that vanishes on the dropped rows is the
sum of the term over the full system. -/
theorem sum_sub_eq_sum (f : Fin n → ℚ) (F : Fin (n_samples_sub epsilon W_vec) → ℚ)
    (hF : ∀ j, ∃ i, (keptRows epsilon W_vec (List.finRange n))[j.val]? = some i ∧ F j = f i)
    (hz : ∀ i, ¬ epsilon ≤ W_vec i → f i = 0) :
    ∑ j, F j = ∑ i, f i := by
  rw [sum_fin_eq_sum_map _ (n_samples_sub_eq epsilon W_vec) F f hF,
    sum_map_keptRows epsilon W_vec f hz, Fin.sum_univ_def]

theorem normal_sub_eq (hz : ∀ i, W_vec i < epsilon → W_vec i = 0) :
    (X_sub epsilon W_vec X targets)ᵀ * Matrix.diagonal (W_vec_sub epsilon W_vec X targets) *
        X_sub epsilon W_vec X targets = Xᵀ * Matrix.diagonal W_vec * X := by
  funext a b
  rw [normal_apply, normal_apply]
  apply sum_sub_eq_sum epsilon W_vec (fun i => X i a * W_vec i * X i b)
  · intro j
    obtain ⟨i, hi, h1, h2, _⟩ := compact_row epsilon W_vec X targets j
    exact ⟨i, hi, by rw [h1, h2]⟩
  · intro i hi
    rw [hz i (lt_of_not_le hi), mul_zero, zero_mul]

theorem rhs_sub_eq (hz : ∀ i, W_vec i < epsilon → W_vec i = 0) :
    (X_sub epsilon W_vec X targets)ᵀ * Matrix.diagonal (W_vec_sub epsilon W_vec X targets) *
        targets_sub epsilon W_vec X targets = Xᵀ * Matrix.diagonal W_vec * targets := by
  funext a b
  rw [rhs_apply, rhs_apply]
  apply sum_sub_eq_sum epsilon W_vec (fun i => X i a * W_vec i * targets i b)
  · intro j
    obtain ⟨i, hi, h1, h2, h3⟩ := compact_row epsilon W_vec X targets j
    exact ⟨i, hi, by rw [h1, h2, h3]⟩
  · intro i hi
    rw [hz i (lt_of_not_le hi), mul_zero, zero_mul]

end zeroWeights

/-! ## Lemmas on saveGridData and on the example data -/

section grid

/-- The shape of the result of `saveGridData` on a trained approximator and a
directory that is not empty. -/
theorem saveGridData_trained {σ : Type} (env : GridEnv σ) (ops : ModelOps)
    (fa : FunctionApproximatorRLS) (mp : ModelParametersRLS)
    (hfa : fa.model_parameters = some mp) (min max : MatrixXd) (n_samples_per_dim : List ℤ)
    (save_directory : String) (overwrite : Bool) (world : σ) (hdir : save_directory ≠ "") :
    ∃ g : GridSaved σ,
      saveGridData env ops fa min max n_samples_per_dim save_directory overwrite world = some g ∧
      g.returned = true ∧
      g.calls.map SaveCall.filename = ["n_samples_per_dim.txt", "inputs_grid.txt",
        "lines_grid.txt", "activations_unnormalized_grid.txt", "activations_grid.txt",
        "predictions_grid.txt"] ∧
      ∀ c ∈ g.calls, c.filename = "predictions_grid.txt" →
        c.matrix = SavedData.reals (MatrixXd.rowwiseProductSum
          (ops.getLines mp (env.generateInputsGrid min max n_samples_per_dim))
          (ops.kernelActivations mp (env.generateInputsGrid min max n_samples_per_dim))) := by
  unfold saveGridData
  rw [if_neg hdir, hfa]
  refine ⟨_, rfl, rfl, rfl, ?_⟩
  intro c hc hname
  simp only [List.mem_cons, List.mem_singleton, List.not_mem_nil, or_false] at hc
  rcases hc with h | h | h | h | h | h
  all_goals first
    | (rw [h]; rfl)
    | (rw [h] at hname; simp [saveCall] at hname)

/-- The weighted normal matrix of the end-to-end scenario, all weights 1, is
invertible. -/
theorem det_normal_inputs4 :
    ((designWithOffset inputs4)ᵀ * Matrix.diagonal (fun _ => (1 : ℚ)) *
      designWithOffset inputs4).det ≠ 0 := by
  rw [Matrix.det_fin_two]
  simp [Matrix.mul_apply, Fin.sum_univ_four, designWithOffset, inputs4, Matrix.diagonal_apply]
  norm_num

end grid

/-! ## The claims -/

/-- C1: on an approximator that is already trained, `train` is a no-op for every
inputs, targets and kernel data: it returns the object it was given, so the
stored model (slopes, offsets, kernel geometry) and the trained flag are
unchanged and `predict` returns the same outputs as before on every input. -/
theorem train_trained_noop (fa : FunctionApproximatorRLS) (inputs targets : MatrixXd)
    (kd : KernelData inputs.rows) (h : fa.isTrained = true) :
    train fa inputs targets kd = Except.ok fa ∧
    ∀ fa1, train fa inputs targets kd = Except.ok fa1 →
      fa1.model_parameters = fa.model_parameters ∧ fa1.isTrained = true ∧
      ∀ (ops : ModelOps) (x out : MatrixXd),
        (predict ops fa1 x out).2 = (predict ops fa x out).2 := by
  have h1 : train fa inputs targets kd = Except.ok fa := by
    unfold train
    rw [if_pos h]
  refine ⟨h1, ?_⟩
  intro fa1 h2
  rw [h1] at h2
  cases h2
  exact ⟨rfl, h, fun _ _ _ => rfl⟩

/-- Witness of C1: the trained example, called again with the data of the
end-to-end scenario. -/
theorem train_trained_noop_witness :
    trainedExample.isTrained = true ∧
    train trainedExample ⟨4, 1, inputs4⟩ ⟨4, 1, targets4⟩ (oneKernel 4 0 1) =
      Except.ok trainedExample :=
  ⟨rfl, (train_trained_noop trainedExample ⟨4, 1, inputs4⟩ ⟨4, 1, targets4⟩
    (oneKernel 4 0 1) rfl).1⟩

/-- C2: on a trained approximator whose lines and kernel activations are computed
row by row, the single-sample call on row `r` of `inputs` returns the value that
the batch call on `inputs` returns in row `r`. -/
theorem predict_single_eq_batch (ops : ModelOps) (fa : FunctionApproximatorRLS)
    (mp : ModelParametersRLS) (hfa : fa.model_parameters = some mp)
    (hLines : ∀ (inputs : MatrixXd) (r : Fin inputs.rows) k,
      ops.getLines mp (inputs.row r) ⟨0, Nat.one_pos⟩ k = ops.getLines mp inputs r k)
    (hActs : ∀ (inputs : MatrixXd) (r : Fin inputs.rows) k,
      ops.kernelActivations mp (inputs.row r) ⟨0, Nat.one_pos⟩ k =
        ops.kernelActivations mp inputs r k)
    (inputs : MatrixXd) (r : Fin inputs.rows) (out1 out2 : MatrixXd) :
    (predict ops fa (inputs.row r) out1).2.get? 0 0 = (predict ops fa inputs out2).2.get? r 0 ∧
    (predict ops fa inputs out2).2.get? r 0 ≠ none := by
  rw [predict_snd_of_trained ops fa mp hfa, predict_snd_of_trained ops fa mp hfa,
    rowwiseProductSum_get _ _ r]
  have hs := rowwiseProductSum_get (ops.getLines mp (inputs.row r))
    (ops.kernelActivations mp (inputs.row r)) ⟨0, Nat.one_pos⟩
  simp only [hLines, hActs] at hs
  exact ⟨hs, by simp⟩

/-- Witness of C2: the trained example with the lines of `lineValue` and uniform
activations, at the second of three inputs. -/
theorem predict_single_eq_batch_witness :
    (predict uniformOps trainedExample (MatrixXd.row ⟨3, 1, inputs3⟩ 1)
        (MatrixXd.sized 0 0)).2.get? 0 0 =
      (predict uniformOps trainedExample ⟨3, 1, inputs3⟩
        (MatrixXd.sized 0 0)).2.get? (1 : Fin 3) 0 ∧
    (predict uniformOps trainedExample ⟨3, 1, inputs3⟩
        (MatrixXd.sized 0 0)).2.get? (1 : Fin 3) 0 ≠ none :=
  predict_single_eq_batch uniformOps trainedExample exampleModel rfl
    (fun inputs r k => by
      simp [uniformOps, lineValue, MatrixXd.get?, MatrixXd.row])
    (fun _ _ _ => rfl) ⟨3, 1, inputs3⟩ 1 (MatrixXd.sized 0 0) (MatrixXd.sized 0 0)

/-- C3: on a trained approximator, `predict` returns outputs with as many rows as
`inputs` (and one column), and output row `t` is the sum over the kernels `k` of
`lines(t,k) * activations(t,k)`. -/
theorem predict_rows_and_sum (ops : ModelOps) (fa : FunctionApproximatorRLS)
    (mp : ModelParametersRLS) (hfa : fa.model_parameters = some mp)
    (inputs outputs : MatrixXd) :
    (predict ops fa inputs outputs).2.rows = inputs.rows ∧
    (predict ops fa inputs outputs).2.cols = 1 ∧
    ∀ t : Fin inputs.rows, (predict ops fa inputs outputs).2.get? t 0 =
      some (∑ k, ops.getLines mp inputs t k * ops.kernelActivations mp inputs t k) := by
  rw [predict_snd_of_trained ops fa mp hfa]
  exact ⟨rfl, rfl, fun t => rowwiseProductSum_get _ _ t⟩

/-- Witness of C3: the trained example on three inputs. -/
theorem predict_rows_and_sum_witness :
    (predict uniformOps trainedExample ⟨3, 1, inputs3⟩ (MatrixXd.sized 0 0)).2.rows = 3 ∧
    (predict uniformOps trainedExample ⟨3, 1, inputs3⟩ (MatrixXd.sized 0 0)).2.cols = 1 ∧
    ∀ t : Fin 3,
      (predict uniformOps trainedExample ⟨3, 1, inputs3⟩ (MatrixXd.sized 0 0)).2.get? t 0 =
      some (∑ k, uniformOps.getLines exampleModel ⟨3, 1, inputs3⟩ t k *
        uniformOps.kernelActivations exampleModel ⟨3, 1, inputs3⟩ t k) :=
  predict_rows_and_sum uniformOps trainedExample exampleModel rfl ⟨3, 1, inputs3⟩
    (MatrixXd.sized 0 0)

/-- C4, the code at a failing input: without offset, for the inputs 1, 2 with
targets 2, 4 and one kernel of weight 1, the fitted coefficient row is the single
slope 2; `train` stores no slope at all (a slope matrix without columns) and
stores the coefficient 2 as the offset. -/
theorem train_without_offset_example :
    ∃ fa1 mp, train (untrainedExample false 1) ⟨2, 1, inputs2⟩ ⟨2, 1, targets2⟩
        (oneKernel 2 0 1) = Except.ok fa1 ∧
      fa1.model_parameters = some mp ∧
      fitBeta inputs2 targets2 (oneKernel 2 0 1) (0 : Fin 1) 0 = 2 ∧
      mp.slopes.cols = 0 ∧ mp.slopes.get? 0 0 = none ∧ mp.offsets.get? 0 0 = some 2 := by
  have hb : fitBeta inputs2 targets2 (oneKernel 2 0 1) (0 : Fin 1) 0 = 2 := by
    have hY : targets2 = inputs2 * (!![2] : Matrix (Fin 1) (Fin 1) ℚ) := by
      funext i c
      fin_cases i <;> (simp [targets2, inputs2, Matrix.mul_apply]; try norm_num)
    have hdet : (normalMatrix 0 inputs2
        (inputs2 * (!![2] : Matrix (Fin 1) (Fin 1) ℚ)) (fun _ => 1)).det ≠ 0 := by
      unfold normalMatrix
      rw [if_pos rfl, Matrix.det_fin_one]
      simp [Matrix.mul_apply, Fin.sum_univ_two, inputs2, Matrix.diagonal_apply, Matrix.vecHead,
        Matrix.transpose_apply]
      norm_num
    unfold fitBeta
    rw [targetColumn_one, hY]
    exact congrFun (fitKernel_exact 0 (fun _ => 1) inputs2 _ hdet) 0
  rw [train_untrained (untrainedExample false 1) inputs2 targets2 (oneKernel 2 0 1) rfl rfl]
  obtain ⟨fa1, mp, h1, h2, _, h4, _, _, _, h8⟩ :=
    trainWithDesign_ok (untrainedExample false 1) inputs2 targets2 (oneKernel 2 0 1)
      (Or.inr rfl) one_ne_zero
  refine ⟨fa1, mp, h1, h2, hb, h4, ?_, ?_⟩
  · simp [MatrixXd.get?, h4]
  · rw [← hb]
    exact h8 (0 : Fin 1) 0 rfl

/-- C5: with `use_offset = true`, `train` on an untrained approximator (inputs of
the expected width, single-column targets) stores for every kernel `k` the first
`D` entries of the fitted row `beta k` as the slopes and the last entry as the
offset, and for every `x` the product of the design row `[x, 1]` with `beta k`
equals `slopes k . x + offset k`. -/
theorem train_splits_offset {N D : ℕ} (fa : FunctionApproximatorRLS)
    (A : Matrix (Fin N) (Fin D) ℚ) (Y : Matrix (Fin N) (Fin 1) ℚ) (kd : KernelData N)
    (hun : fa.isTrained = false) (hoff : fa.meta_parameters.use_offset = true)
    (hD : D = fa.meta_parameters.expected_input_dim) :
    ∃ fa1 mp, train fa ⟨N, D, A⟩ ⟨N, 1, Y⟩ kd = Except.ok fa1 ∧
      fa1.model_parameters = some mp ∧ mp.slopes.cols = D ∧ mp.offsets.cols = 1 ∧
      ∀ k : Fin kd.n_kernels,
        (∀ j : Fin D, mp.slopes.get? k j =
          some (fitBeta (designWithOffset A) Y kd k j.castSucc)) ∧
        mp.offsets.get? k 0 = some (fitBeta (designWithOffset A) Y kd k (Fin.last D)) ∧
        ∀ x : Fin D → ℚ,
          ∑ j, designWithOffset (fun _ : Fin 1 => x) 0 j * fitBeta (designWithOffset A) Y kd k j =
            (∑ j : Fin D, (mp.slopes.get? k j).getD 0 * x j) + (mp.offsets.get? k 0).getD 0 := by
  rw [train_untrained fa A Y kd hun hD, if_pos hoff]
  obtain ⟨fa1, mp, h1, h2, _, h4, _, h6, h7, h8⟩ :=
    trainWithDesign_ok fa (designWithOffset A) Y kd (Or.inr rfl) (Nat.succ_ne_zero D)
  refine ⟨fa1, mp, h1, h2, h4, h6, fun k => ?_⟩
  have hs : ∀ j : Fin D, mp.slopes.get? k j =
      some (fitBeta (designWithOffset A) Y kd k j.castSucc) :=
    fun j => h7 k j.castSucc (by simp)
  have ho : mp.offsets.get? k 0 = some (fitBeta (designWithOffset A) Y kd k (Fin.last D)) :=
    h8 k (Fin.last D) (by simp)
  refine ⟨hs, ho, fun x => ?_⟩
  rw [Fin.sum_univ_castSucc, ho]
  simp only [hs, Option.getD_some]
  simp [designWithOffset, mul_comm]

/-- Witness of C5: the data of the end-to-end scenario. -/
theorem train_splits_offset_witness :
    ∃ fa1 mp, train (untrainedExample true 1) ⟨4, 1, inputs4⟩ ⟨4, 1, targets4⟩
        (oneKernel 4 0 1) = Except.ok fa1 ∧
      fa1.model_parameters = some mp ∧ mp.slopes.cols = 1 ∧ mp.offsets.cols = 1 ∧
      ∀ k : Fin 1,
        (∀ j : Fin 1, mp.slopes.get? k j =
          some (fitBeta (designWithOffset inputs4) targets4 (oneKernel 4 0 1) k j.castSucc)) ∧
        mp.offsets.get? k 0 =
          some (fitBeta (designWithOffset inputs4) targets4 (oneKernel 4 0 1) k (Fin.last 1)) ∧
        ∀ x : Fin 1 → ℚ,
          ∑ j, designWithOffset (fun _ : Fin 1 => x) 0 j *
              fitBeta (designWithOffset inputs4) targets4 (oneKernel 4 0 1) k j =
            (∑ j : Fin 1, (mp.slopes.get? k j).getD 0 * x j) + (mp.offsets.get? k 0).getD 0 :=
  train_splits_offset (untrainedExample true 1) inputs4 targets4 (oneKernel 4 0 1) rfl rfl rfl

/-- C6: when the targets are exactly the affine function `a . x + b` of the
inputs, `use_offset` is true and, for every kernel, the weighted normal matrix
that `train` inverts is invertible, `train` stores slope `a` and offset `b` for
every kernel, whatever the weights; and `predict` on the trained approximator,
with the lines evaluated from the stored slopes and offsets and activations that
sum to one in every row, returns `a . x + b`. -/
theorem train_fits_affine {N D : ℕ} (fa : FunctionApproximatorRLS)
    (A : Matrix (Fin N) (Fin D) ℚ) (Y : Matrix (Fin N) (Fin 1) ℚ) (kd : KernelData N)
    (a : Fin D → ℚ) (b : ℚ)
    (hun : fa.isTrained = false) (hoff : fa.meta_parameters.use_offset = true)
    (hD : D = fa.meta_parameters.expected_input_dim)
    (hY : ∀ i, Y i 0 = (∑ j, a j * A i j) + b)
    (hdet : ∀ k, (normalMatrix kd.epsilon (designWithOffset A) Y
      (fun i => kd.activations i k)).det ≠ 0) :
    ∃ fa1 mp, train fa ⟨N, D, A⟩ ⟨N, 1, Y⟩ kd = Except.ok fa1 ∧
      fa1.model_parameters = some mp ∧ mp.slopes.rows = kd.n_kernels ∧
      (∀ k : Fin kd.n_kernels,
        (∀ j : Fin D, mp.slopes.get? k j = some (a j)) ∧ mp.offsets.get? k 0 = some b) ∧
      ∀ (ops : ModelOps) (T : ℕ) (x : Matrix (Fin T) (Fin D) ℚ) (out : MatrixXd),
        ops.getNumberOfBasisFunctions mp = mp.slopes.rows →
        (∀ t k, ops.getLines mp ⟨T, D, x⟩ t k = lineValue mp ⟨T, D, x⟩ t k) →
        (∀ t, ∑ k, ops.kernelActivations mp ⟨T, D, x⟩ t k = 1) →
        ∀ t : Fin T, (predict ops fa1 ⟨T, D, x⟩ out).2.get? t 0 =
          some ((∑ j, a j * x t j) + b) := by
  have hYX : Y = designWithOffset A * affineColumn a b := by
    funext i c
    have hc : c = 0 := Subsingleton.elim _ _
    subst hc
    rw [hY, Matrix.mul_apply, Fin.sum_univ_castSucc]
    simp [designWithOffset, affineColumn, mul_comm]
  have hbeta : ∀ k, fitBeta (designWithOffset A) Y kd k = fun j => affineColumn a b j 0 := by
    intro k
    unfold fitBeta
    rw [targetColumn_one]
    have hd := hdet k
    rw [hYX] at hd ⊢
    exact fitKernel_exact kd.epsilon _ (designWithOffset A) (affineColumn a b) hd
  rw [train_untrained fa A Y kd hun hD, if_pos hoff]
  obtain ⟨fa1, mp, h1, h2, h3, h4, _, _, h7, h8⟩ :=
    trainWithDesign_ok fa (designWithOffset A) Y kd (Or.inr rfl) (Nat.succ_ne_zero D)
  have hs : ∀ (k : Fin kd.n_kernels) (j : Fin D), mp.slopes.get? k j = some (a j) := by
    intro k j
    have h := h7 k j.castSucc (by simp)
    rw [Fin.coe_castSucc] at h
    rw [h, hbeta k]
    simp [affineColumn]
  have ho : ∀ k : Fin kd.n_kernels, mp.offsets.get? k 0 = some b := by
    intro k
    rw [h8 k (Fin.last D) (by simp), hbeta k]
    simp [affineColumn]
  refine ⟨fa1, mp, h1, h2, h3, fun k => ⟨hs k, ho k⟩, ?_⟩
  intro ops T x out hK hLines hActs t
  rw [predict_snd_of_trained ops fa1 mp h2, rowwiseProductSum_get]
  have hline : ∀ k : Fin (ops.getNumberOfBasisFunctions mp),
      ops.getLines mp ⟨T, D, x⟩ t k = (∑ j, a j * x t j) + b := by
    intro k
    have hk : k.val < kd.n_kernels := by
      have := k.isLt
      omega
    rw [hLines]
    unfold lineValue
    have h4D : mp.slopes.cols = D := by simpa using h4
    rw [h4D, ← Fin.sum_univ_eq_sum_range
      (fun j => (mp.slopes.get? k j).getD 0 * ((MatrixXd.get? ⟨T, D, x⟩ t j).getD 0)) D]
    have ho1 := ho ⟨k.val, hk⟩
    simp only [] at ho1
    rw [ho1]
    congr 1
    apply Finset.sum_congr rfl
    intro j _
    have hs1 := hs ⟨k.val, hk⟩ j
    simp only [] at hs1
    rw [hs1]
    simp [MatrixXd.get?]
  simp only [hline]
  rw [← Finset.mul_sum, hActs t, mul_one]

/-- Witness of C6, the end-to-end scenario: inputs 0, 1, 2, 3, targets 0, 2, 4, 6,
one kernel of activation 1, epsilon 0.  The fitted slope is 2, the offset 0, and
the prediction at input 5 is 10. -/
theorem train_fits_affine_witness :
    ∃ fa1 mp, train (untrainedExample true 1) ⟨4, 1, inputs4⟩ ⟨4, 1, targets4⟩
        (oneKernel 4 0 1) = Except.ok fa1 ∧
      fa1.model_parameters = some mp ∧
      mp.slopes.get? 0 0 = some 2 ∧ mp.offsets.get? 0 0 = some 0 ∧
      (predict uniformOps fa1 ⟨1, 1, !![5]⟩ (MatrixXd.sized 0 0)).2.get? 0 0 = some 10 := by
  have hY : ∀ i, targets4 i 0 = (∑ j, (fun _ : Fin 1 => (2 : ℚ)) j * inputs4 i j) + 0 := by
    intro i
    fin_cases i <;> (simp [targets4, inputs4]; try norm_num)
  have hdet : ∀ k : Fin 1, (normalMatrix 0 (designWithOffset inputs4) targets4
      (fun i => (oneKernel 4 0 1).activations i k)).det ≠ 0 := by
    intro k
    unfold normalMatrix
    rw [if_pos rfl, Matrix.det_fin_two]
    simp [Matrix.mul_apply, Fin.sum_univ_four, designWithOffset, inputs4, Matrix.diagonal_apply,
      oneKernel]
    norm_num
  obtain ⟨fa1, mp, h1, h2, hrows, h3, h4⟩ :=
    train_fits_affine (untrainedExample true 1) inputs4 targets4 (oneKernel 4 0 1)
      (fun _ => 2) 0 rfl rfl rfl hY hdet
  have hrows1 : mp.slopes.rows = 1 := hrows
  refine ⟨fa1, mp, h1, h2, (h3 (0 : Fin 1)).1 0, (h3 (0 : Fin 1)).2, ?_⟩
  have h5 := h4 uniformOps 1 !![5] (MatrixXd.sized 0 0) rfl (fun _ _ => rfl)
    (fun _ => by simp [uniformOps, hrows1]) 0
  have h6 : (∑ j : Fin 1, 2 * (!![5] : Matrix (Fin 1) (Fin 1) ℚ) 0 j + 0) = 10 := by
    simp
    norm_num
  rw [h6] at h5
  exact h5

/-- C7: for every threshold `epsilon > 0` and every kernel all of whose weights
are at least `epsilon`, so that no row is pruned, the pruned-path solve returns
the same coefficient vector as the dense-path solve (the path taken for
`epsilon = 0`) on the same design matrix, weights and targets. -/
theorem pruned_eq_dense_when_all_kept {n p : ℕ} (epsilon : ℚ)
    (X : Matrix (Fin n) (Fin p) ℚ) (targets : Matrix (Fin n) (Fin 1) ℚ) (W_vec : Fin n → ℚ)
    (hε : 0 < epsilon) (hall : ∀ i, epsilon ≤ W_vec i) :
    cur_beta_sub epsilon X targets W_vec = cur_beta X targets W_vec ∧
    fitKernel epsilon X targets W_vec = fitKernel 0 X targets W_vec := by
  have h := cur_beta_sub_eq_cur_beta epsilon W_vec X targets hall
  refine ⟨h, ?_⟩
  unfold fitKernel
  rw [if_neg (ne_of_gt hε), if_pos rfl, h]

/-- Witness of C7: the design matrix and targets of the end-to-end scenario, all
weights 1, threshold 1/2. -/
theorem pruned_eq_dense_when_all_kept_witness :
    (0 : ℚ) < 1/2 ∧ (∀ _i : Fin 4, (1/2 : ℚ) ≤ 1) ∧
    cur_beta_sub (1/2) (designWithOffset inputs4) targets4 (fun _ => 1) =
      cur_beta (designWithOffset inputs4) targets4 (fun _ => 1) ∧
    fitKernel (1/2) (designWithOffset inputs4) targets4 (fun _ => 1) =
      fitKernel 0 (designWithOffset inputs4) targets4 (fun _ => 1) :=
  ⟨by norm_num, fun _ => by norm_num,
    pruned_eq_dense_when_all_kept (1/2) (designWithOffset inputs4) targets4 (fun _ => 1)
      (by norm_num) (fun _ => by norm_num)⟩

/-- C8: on the pruned path (`epsilon > 0`), the sub-system `W_vec_sub`, `X_sub`,
`targets_sub` consists of exactly the rows `i` with `W_vec i >= epsilon`, in their
original order, and the weight, the design row and the target row at one place of
the sub-system all come from the same row `i`. -/
theorem pruned_subsystem_rows {n p q : ℕ} (epsilon : ℚ) (W_vec : Fin n → ℚ)
    (X : Matrix (Fin n) (Fin p) ℚ) (targets : Matrix (Fin n) (Fin q) ℚ)
    (_hε : 0 < epsilon) :
    ∃ idx : Fin (n_samples_sub epsilon W_vec) → Fin n,
      StrictMono idx ∧ (∀ i, (∃ j, idx j = i) ↔ epsilon ≤ W_vec i) ∧
      ∀ j, W_vec_sub epsilon W_vec X targets j = W_vec (idx j) ∧
        X_sub epsilon W_vec X targets j = X (idx j) ∧
        targets_sub epsilon W_vec X targets j = targets (idx j) := by
  choose idx hidx using compact_row epsilon W_vec X targets
  have hlen := n_samples_sub_eq epsilon W_vec
  have hget : ∀ j : Fin (n_samples_sub epsilon W_vec),
      (keptRows epsilon W_vec (List.finRange n)).get (Fin.cast hlen j) = idx j := by
    intro j
    have h := (hidx j).1
    rw [List.getElem?_eq_getElem (lt_of_lt_of_eq j.isLt hlen)] at h
    exact Option.some.inj h
  refine ⟨idx, ?_, ?_, fun j => (hidx j).2⟩
  · intro a b hab
    rw [← hget a, ← hget b]
    exact (keptRows_sorted epsilon W_vec).get_strictMono hab
  · intro i
    rw [← mem_keptRows epsilon W_vec i, List.mem_iff_get]
    constructor
    · rintro ⟨j, hj⟩
      exact ⟨Fin.cast hlen j, by rw [hget j, hj]⟩
    · rintro ⟨k, hk⟩
      refine ⟨Fin.cast hlen.symm k, ?_⟩
      rw [← hget]
      exact hk

/-- Witness of C8, the example in the comment of the source: with threshold 1/10
and weights 0.001, 0.01, 0.5, 0.98, 0.46, 0.01, 0.001 the loop keeps three rows
and the kept weights are 0.5, 0.98, 0.46. -/
theorem pruned_subsystem_rows_witness :
    (0 : ℚ) < 1/10 ∧
    (∃ idx : Fin (n_samples_sub (1/10) W7) → Fin 7,
      StrictMono idx ∧ (∀ i, (∃ j, idx j = i) ↔ 1/10 ≤ W7 i) ∧
      ∀ j, W_vec_sub (1/10) W7 X7 T7 j = W7 (idx j) ∧
        X_sub (1/10) W7 X7 T7 j = X7 (idx j) ∧
        targets_sub (1/10) W7 X7 T7 j = T7 (idx j)) ∧
    n_samples_sub (1/10) W7 = 3 ∧
    (compact (1/10) W7 X7 T7).W_vec_sub 0 = 1/2 ∧
    (compact (1/10) W7 X7 T7).W_vec_sub 1 = 49/50 ∧
    (compact (1/10) W7 X7 T7).W_vec_sub 2 = 23/50 := by
  refine ⟨by norm_num, pruned_subsystem_rows (1/10) W7 X7 T7 (by norm_num), ?_, ?_, ?_, ?_⟩
  · rw [n_samples_sub_eq, keptRows_W7]; rfl
  · rw [(compact_eq_written (1/10) W7 X7 T7 0).1, keptRows_W7]; rfl
  · rw [(compact_eq_written (1/10) W7 X7 T7 1).1, keptRows_W7]; rfl
  · rw [(compact_eq_written (1/10) W7 X7 T7 2).1, keptRows_W7]; rfl

/-- C9, counterexample: one kernel whose weights (all 1/10) stay below the
threshold 1/2.  The pruned subset is empty and the matrix that `train` inverts is
singular, yet `train` returns normally and installs a model, with slope 0 and
offset 0. -/
theorem train_singular_returns :
    n_samples_sub (1/2) (fun _ : Fin 4 => (1/10 : ℚ)) = 0 ∧
    (normalMatrix (1/2) (designWithOffset inputs4) targets4 (fun _ => 1/10)).det = 0 ∧
    ∃ fa1 mp, train (untrainedExample true 1) ⟨4, 1, inputs4⟩ ⟨4, 1, targets4⟩
        (oneKernel 4 (1/2) (1/10)) = Except.ok fa1 ∧
      fa1.isTrained = true ∧ fa1.model_parameters = some mp ∧
      mp.slopes.get? 0 0 = some 0 ∧ mp.offsets.get? 0 0 = some 0 := by
  have hsmall : ∀ _i : Fin 4, (1/10 : ℚ) < 1/2 := fun _ => by norm_num
  have h0 : (1/2 : ℚ) ≠ 0 := by norm_num
  obtain ⟨hfit, hnormal⟩ := fitKernel_of_none_kept (1/2) (fun _ : Fin 4 => (1/10 : ℚ))
    (designWithOffset inputs4) targets4 h0 hsmall
  refine ⟨n_samples_sub_none _ _ hsmall, ?_, ?_⟩
  · rw [hnormal]
    exact Matrix.det_zero ⟨0⟩
  · rw [train_untrained (untrainedExample true 1) inputs4 targets4 (oneKernel 4 (1/2) (1/10))
      rfl rfl]
    obtain ⟨fa1, mp, h1, h2, _, _, _, _, h7, h8⟩ :=
      trainWithDesign_ok (untrainedExample true 1) (designWithOffset inputs4) targets4
        (oneKernel 4 (1/2) (1/10)) (Or.inr rfl) (Nat.succ_ne_zero 1)
    have hbeta : fitBeta (designWithOffset inputs4) targets4 (oneKernel 4 (1/2) (1/10))
        (0 : Fin 1) = 0 := by
      unfold fitBeta
      rw [targetColumn_one]
      exact hfit
    refine ⟨fa1, mp, h1, isTrained_of_model h2, h2, ?_, ?_⟩
    · have := h7 (0 : Fin 1) 0 (by decide)
      rw [hbeta] at this
      exact this
    · have := h8 (0 : Fin 1) 1 (by decide)
      rw [hbeta] at this
      exact this

/-- C9, amended: `train` has no failure for numerical degeneracy.  On an
untrained approximator it returns normally, with a model installed, exactly when
the sizes pass the assertions: equal row counts, inputs of the expected width,
single-column targets (or no kernel at all) and a design matrix with at least
one column.  The values of the data, and with them the determinant of the
weighted normal matrix, play no part. -/
theorem train_ok_iff_sizes (fa : FunctionApproximatorRLS) (inputs targets : MatrixXd)
    (kd : KernelData inputs.rows) (hun : fa.isTrained = false) :
    (∃ fa1, train fa inputs targets kd = Except.ok fa1 ∧ fa1.isTrained = true) ↔
      (inputs.rows = targets.rows ∧ inputs.cols = fa.meta_parameters.expected_input_dim ∧
        (kd.n_kernels = 0 ∨ targets.cols = 1) ∧
        (fa.meta_parameters.use_offset = true ∨ inputs.cols ≠ 0)) := by
  unfold train
  rw [if_neg (by simp [hun])]
  by_cases hrows : inputs.rows = targets.rows
  · rw [dif_pos hrows]
    by_cases hcols : inputs.cols = fa.meta_parameters.expected_input_dim
    · rw [if_pos hcols]
      simp only []
      by_cases hoff : fa.meta_parameters.use_offset = true
      · rw [if_pos hoff]
        by_cases hq : kd.n_kernels = 0 ∨ targets.cols = 1
        · obtain ⟨fa1, mp, h1, h2, _⟩ := trainWithDesign_ok fa (designWithOffset inputs.coeff)
            (fun i j => targets.coeff (Fin.cast hrows i) j) kd hq (Nat.succ_ne_zero _)
          rw [h1]
          exact ⟨fun _ => ⟨hrows, hcols, hq, Or.inl hoff⟩,
            fun _ => ⟨fa1, rfl, isTrained_of_model h2⟩⟩
        · rw [trainWithDesign_error fa _ _ kd (fun h => hq h.1)]
          exact ⟨fun ⟨_, h, _⟩ => (by cases h), fun h => absurd h.2.2.1 hq⟩
      · rw [if_neg hoff]
        by_cases hq : (kd.n_kernels = 0 ∨ targets.cols = 1) ∧ inputs.cols ≠ 0
        · obtain ⟨fa1, mp, h1, h2, _⟩ := trainWithDesign_ok fa inputs.coeff
            (fun i j => targets.coeff (Fin.cast hrows i) j) kd hq.1 hq.2
          rw [h1]
          exact ⟨fun _ => ⟨hrows, hcols, hq.1, Or.inr hq.2⟩,
            fun _ => ⟨fa1, rfl, isTrained_of_model h2⟩⟩
        · rw [trainWithDesign_error fa _ _ kd hq]
          refine ⟨fun ⟨_, h, _⟩ => (by cases h), fun h => ?_⟩
          rcases h.2.2.2 with h3 | h3
          · exact absurd h3 hoff
          · exact absurd ⟨h.2.2.1, h3⟩ hq
    · rw [if_neg hcols]
      exact ⟨fun ⟨_, h, _⟩ => (by cases h), fun h => absurd h.2.1 hcols⟩
  · rw [dif_neg hrows]
    exact ⟨fun ⟨_, h, _⟩ => (by cases h), fun h => absurd h.1 hrows⟩

/-- Witness of C9 amended: the sizes of the singular example pass, so `train`
returns normally there. -/
theorem train_ok_iff_sizes_witness :
    (untrainedExample true 1).isTrained = false ∧
    ((∃ fa1, train (untrainedExample true 1) ⟨4, 1, inputs4⟩ ⟨4, 1, targets4⟩
        (oneKernel 4 (1/2) (1/10)) = Except.ok fa1 ∧ fa1.isTrained = true) ↔
      ((4 : ℕ) = 4 ∧ (1 : ℕ) = 1 ∧ ((1 : ℕ) = 0 ∨ (1 : ℕ) = 1) ∧
        (true = true ∨ (1 : ℕ) ≠ 0))) :=
  ⟨rfl, train_ok_iff_sizes (untrainedExample true 1) ⟨4, 1, inputs4⟩ ⟨4, 1, targets4⟩
    (oneKernel 4 (1/2) (1/10)) rfl⟩

/-- C10, counterexample: on a trained approximator, a call whose inputs have
three rows and whose targets have four returns normally (it is the no-op of the
first lines of `train`); no assertion is reached. -/
theorem train_trained_mismatch_returns :
    (MatrixXd.mk 3 1 inputs3).rows ≠ (MatrixXd.mk 4 1 targets4).rows ∧
    train trainedExample ⟨3, 1, inputs3⟩ ⟨4, 1, targets4⟩ (oneKernel 3 0 1) =
      Except.ok trainedExample :=
  ⟨by decide, rfl⟩

/-- C10, amended: on an approximator that is not yet trained, a call in which
`inputs.rows() != targets.rows()` or `inputs.cols()` differs from the expected
input dimension stops with an assertion fault; no model is installed. -/
theorem train_untrained_asserts (fa : FunctionApproximatorRLS) (inputs targets : MatrixXd)
    (kd : KernelData inputs.rows) (hun : fa.isTrained = false)
    (hbad : inputs.rows ≠ targets.rows ∨
      inputs.cols ≠ fa.meta_parameters.expected_input_dim) :
    train fa inputs targets kd = Except.error Fault.assertion := by
  unfold train
  rw [if_neg (by simp [hun])]
  by_cases hrows : inputs.rows = targets.rows
  · rw [dif_pos hrows]
    rcases hbad with h | h
    · exact absurd hrows h
    · rw [if_neg h]
  · rw [dif_neg hrows]

/-- Witness of C10 amended: the untrained example, three input rows against four
target rows. -/
theorem train_untrained_asserts_witness :
    (untrainedExample true 1).isTrained = false ∧
    train (untrainedExample true 1) ⟨3, 1, inputs3⟩ ⟨4, 1, targets4⟩ (oneKernel 3 0 1) =
      Except.error Fault.assertion :=
  ⟨rfl, train_untrained_asserts (untrainedExample true 1) ⟨3, 1, inputs3⟩ ⟨4, 1, targets4⟩
    (oneKernel 3 0 1) rfl (Or.inl (by decide))⟩

/-- C11: on an approximator that is not trained, `predict` returns (there is no
fault) and leaves the `outputs` matrix of the caller, size and contents, and the
whole state of the approximator as they were. -/
theorem predict_untrained_noop (ops : ModelOps) (fa : FunctionApproximatorRLS)
    (inputs outputs : MatrixXd) (hun : fa.isTrained = false) :
    predict ops fa inputs outputs = (fa, outputs) := by
  have h : fa.model_parameters = none := by
    cases hm : fa.model_parameters with
    | none => rfl
    | some mp => simp [FunctionApproximatorRLS.isTrained, hm] at hun
  unfold predict
  rw [h]

/-- Witness of C11: the untrained example, three inputs, outputs that already
hold values. -/
theorem predict_untrained_noop_witness :
    (untrainedExample true 1).isTrained = false ∧
    predict uniformOps (untrainedExample true 1) ⟨3, 1, inputs3⟩ ⟨4, 1, targets4⟩ =
      (untrainedExample true 1, ⟨4, 1, targets4⟩) :=
  ⟨rfl, predict_untrained_noop uniformOps (untrainedExample true 1) ⟨3, 1, inputs3⟩
    ⟨4, 1, targets4⟩ rfl⟩

/-- C13, counterexample: a trained approximator, the directory `out`, and a
`saveMatrix` every call of which fails.  All six writes return false and
`saveGridData` returns true. -/
theorem saveGridData_ignores_failures :
    ∃ g : GridSaved (List String),
      saveGridData failingEnv uniformOps trainedExample ⟨1, 1, !![0]⟩ ⟨1, 1, !![1]⟩ [3]
        "out" false [] = some g ∧
      g.calls.length = 6 ∧ (∀ c ∈ g.calls, c.returned = false) ∧ g.returned = true :=
  ⟨_, rfl, rfl, by
    intro c hc
    simp only [List.mem_cons, List.mem_singleton, List.not_mem_nil, or_false] at hc
    rcases hc with h | h | h | h | h | h <;> (rw [h]; rfl), rfl⟩

/-- C13, amended: on a trained approximator and a directory that is not empty,
`saveGridData` makes its six calls of `saveMatrix` and returns true, whatever
these calls return: their results are discarded. -/
theorem saveGridData_returns_true {σ : Type} (env : GridEnv σ) (ops : ModelOps)
    (fa : FunctionApproximatorRLS) (mp : ModelParametersRLS)
    (hfa : fa.model_parameters = some mp) (min max : MatrixXd) (n_samples_per_dim : List ℤ)
    (save_directory : String) (overwrite : Bool) (world : σ) (hdir : save_directory ≠ "") :
    ∃ g : GridSaved σ,
      saveGridData env ops fa min max n_samples_per_dim save_directory overwrite world = some g ∧
      g.returned = true ∧
      g.calls.map SaveCall.filename = ["n_samples_per_dim.txt", "inputs_grid.txt",
        "lines_grid.txt", "activations_unnormalized_grid.txt", "activations_grid.txt",
        "predictions_grid.txt"] := by
  obtain ⟨g, h1, h2, h3, _⟩ := saveGridData_trained env ops fa mp hfa min max
    n_samples_per_dim save_directory overwrite world hdir
  exact ⟨g, h1, h2, h3⟩

/-- Witness of C13 amended: the trained example, the directory `out`, writes that
succeed. -/
theorem saveGridData_returns_true_witness :
    ∃ g : GridSaved (List String),
      saveGridData recordingEnv uniformOps trainedExample ⟨1, 1, !![0]⟩ ⟨1, 1, !![1]⟩ [3]
        "out" false [] = some g ∧
      g.returned = true ∧
      g.calls.map SaveCall.filename = ["n_samples_per_dim.txt", "inputs_grid.txt",
        "lines_grid.txt", "activations_unnormalized_grid.txt", "activations_grid.txt",
        "predictions_grid.txt"] :=
  saveGridData_returns_true recordingEnv uniformOps trainedExample exampleModel rfl
    ⟨1, 1, !![0]⟩ ⟨1, 1, !![1]⟩ [3] "out" false [] (by decide)

/-- C14: with an empty `save_directory`, `saveGridData` returns true, calls
`saveMatrix` not once and leaves the file system as it was, for every `min`,
`max`, `n_samples_per_dim` and overwrite flag (and every approximator, trained
or not: nothing is evaluated). -/
theorem saveGridData_empty_directory {σ : Type} (env : GridEnv σ) (ops : ModelOps)
    (fa : FunctionApproximatorRLS) (min max : MatrixXd) (n_samples_per_dim : List ℤ)
    (save_directory : String) (overwrite : Bool) (world : σ) (hdir : save_directory = "") :
    saveGridData env ops fa min max n_samples_per_dim save_directory overwrite world =
      some ⟨true, world, []⟩ := by
  unfold saveGridData
  rw [if_pos hdir]

/-- Witness of C14: `min = [0]`, `max = [1]`, `n_samples_per_dim = [3]`, on an
approximator that is not even trained. -/
theorem saveGridData_empty_directory_witness :
    saveGridData recordingEnv uniformOps (untrainedExample true 1) ⟨1, 1, !![0]⟩
      ⟨1, 1, !![1]⟩ [3] "" true [] = some ⟨true, [], []⟩ :=
  saveGridData_empty_directory recordingEnv uniformOps (untrainedExample true 1)
    ⟨1, 1, !![0]⟩ ⟨1, 1, !![1]⟩ [3] "" true [] rfl

/-- C15: on the dense path, for a design matrix `X`, non-negative weights `w` and
single-column targets `y` with an invertible `XᵀWX`, the coefficient vector that
`train` computes satisfies the normal equations `(XᵀWX) beta = XᵀWy` and
minimises the weighted squared error over all coefficient vectors. -/
theorem dense_fit_least_squares {n p : ℕ} (X : Matrix (Fin n) (Fin p) ℚ)
    (targets : Matrix (Fin n) (Fin 1) ℚ) (W_vec : Fin n → ℚ)
    (hw : ∀ i, 0 ≤ W_vec i) (hdet : (Xᵀ * Matrix.diagonal W_vec * X).det ≠ 0) :
    fitKernel 0 X targets W_vec = cur_beta X targets W_vec ∧
    (Xᵀ * Matrix.diagonal W_vec * X).mulVec (cur_beta X targets W_vec) =
      (fun j => (Xᵀ * Matrix.diagonal W_vec * targets) j 0) ∧
    ∀ beta : Fin p → ℚ,
      weightedSquaredError X W_vec targets (cur_beta X targets W_vec) ≤
        weightedSquaredError X W_vec targets beta := by
  refine ⟨?_, ?_, ?_⟩
  · unfold fitKernel
    rw [if_pos rfl]
  · funext j
    have hn := congrFun (congrFun (weightedSolve_normal X W_vec targets hdet) j) 0
    rw [Matrix.mul_apply] at hn
    exact hn
  · intro beta
    rw [weightedSquaredError_eq X W_vec targets hdet beta]
    have hpos : 0 ≤ ∑ i, W_vec i *
        (∑ k, X i k * (beta k - cur_beta X targets W_vec k)) ^ 2 :=
      Finset.sum_nonneg fun i _ => mul_nonneg (hw i) (sq_nonneg _)
    linarith

/-- Witness of C15: the design matrix and targets of the end-to-end scenario, all
weights 1. -/
theorem dense_fit_least_squares_witness :
    ((designWithOffset inputs4)ᵀ * Matrix.diagonal (fun _ => (1 : ℚ)) *
        designWithOffset inputs4).mulVec
        (cur_beta (designWithOffset inputs4) targets4 (fun _ => 1)) =
      (fun j => ((designWithOffset inputs4)ᵀ * Matrix.diagonal (fun _ : Fin 4 => (1 : ℚ)) *
        targets4 : Matrix (Fin 2) (Fin 1) ℚ) j 0) ∧
    ∀ beta : Fin 2 → ℚ,
      weightedSquaredError (designWithOffset inputs4) (fun _ => 1) targets4
          (cur_beta (designWithOffset inputs4) targets4 (fun _ => 1)) ≤
        weightedSquaredError (designWithOffset inputs4) (fun _ => 1) targets4 beta :=
  (dense_fit_least_squares (designWithOffset inputs4) targets4 (fun _ => 1)
    (fun _ => zero_le_one) det_normal_inputs4).2

/-- C16: the design matrix that `train` builds has as many rows as `inputs`.
With `use_offset` it has `D_in + 1` columns, row `i` being row `i` of `inputs`
followed by 1, and `n_betas = D_in + 1`; without, it is `inputs` and
`n_betas = D_in`.  On an untrained approximator and inputs of the expected
width, the fit of `train` runs on exactly this matrix. -/
theorem design_matrix_of_train {N D q : ℕ} (fa : FunctionApproximatorRLS)
    (A : Matrix (Fin N) (Fin D) ℚ) (Y : Matrix (Fin N) (Fin q) ℚ) (kd : KernelData N)
    (hun : fa.isTrained = false) (hD : D = fa.meta_parameters.expected_input_dim) :
    (designMatrix fa.meta_parameters.use_offset ⟨N, D, A⟩).rows = N ∧
    (fa.meta_parameters.use_offset = true →
      designMatrix fa.meta_parameters.use_offset ⟨N, D, A⟩ =
        ⟨N, D + 1, designWithOffset A⟩ ∧
      n_betas fa.meta_parameters.use_offset ⟨N, D, A⟩ = D + 1 ∧
      (∀ i (j : Fin D), designWithOffset A i j.castSucc = A i j) ∧
      (∀ i, designWithOffset A i (Fin.last D) = 1) ∧
      train fa ⟨N, D, A⟩ ⟨N, q, Y⟩ kd = trainWithDesign fa (designWithOffset A) Y kd) ∧
    (fa.meta_parameters.use_offset = false →
      designMatrix fa.meta_parameters.use_offset ⟨N, D, A⟩ = ⟨N, D, A⟩ ∧
      n_betas fa.meta_parameters.use_offset ⟨N, D, A⟩ = D ∧
      train fa ⟨N, D, A⟩ ⟨N, q, Y⟩ kd = trainWithDesign fa A Y kd) := by
  have ht := train_untrained fa A Y kd hun hD
  refine ⟨?_, ?_, ?_⟩
  · unfold designMatrix
    split_ifs <;> rfl
  · intro hoff
    rw [hoff] at ht ⊢
    refine ⟨rfl, rfl, ?_, ?_, ht⟩
    · intro i j
      simp [designWithOffset]
    · intro i
      simp [designWithOffset]
  · intro hoff
    rw [hoff] at ht ⊢
    exact ⟨rfl, rfl, ht⟩

/-- Witness of C16: the inputs of the end-to-end scenario, with offset. -/
theorem design_matrix_of_train_witness :
    designMatrix true ⟨4, 1, inputs4⟩ = ⟨4, 2, designWithOffset inputs4⟩ ∧
    n_betas true ⟨4, 1, inputs4⟩ = 2 ∧
    (∀ i (j : Fin 1), designWithOffset inputs4 i j.castSucc = inputs4 i j) ∧
    (∀ i, designWithOffset inputs4 i (Fin.last 1) = 1) ∧
    train (untrainedExample true 1) ⟨4, 1, inputs4⟩ ⟨4, 1, targets4⟩ (oneKernel 4 0 1) =
      trainWithDesign (untrainedExample true 1) (designWithOffset inputs4) targets4
        (oneKernel 4 0 1) :=
  (design_matrix_of_train (untrainedExample true 1) inputs4 targets4 (oneKernel 4 0 1)
    rfl rfl).2.1 rfl

/-- C17: on a trained approximator, the `predictions` array that `saveGridData`
computes and hands to `saveMatrix` as `predictions_grid.txt` is the `outputs`
matrix that `predict` returns on the same grid inputs. -/
theorem saveGridData_predictions_eq_predict {σ : Type} (env : GridEnv σ) (ops : ModelOps)
    (fa : FunctionApproximatorRLS) (mp : ModelParametersRLS)
    (hfa : fa.model_parameters = some mp) (min max : MatrixXd) (n_samples_per_dim : List ℤ)
    (save_directory : String) (overwrite : Bool) (world : σ) (hdir : save_directory ≠ "")
    (outputs : MatrixXd) :
    ∃ g : GridSaved σ,
      saveGridData env ops fa min max n_samples_per_dim save_directory overwrite world = some g ∧
      (∃ c ∈ g.calls, c.filename = "predictions_grid.txt") ∧
      ∀ c ∈ g.calls, c.filename = "predictions_grid.txt" →
        c.matrix = SavedData.reals
          (predict ops fa (env.generateInputsGrid min max n_samples_per_dim) outputs).2 := by
  obtain ⟨g, h1, _, h3, h4⟩ := saveGridData_trained env ops fa mp hfa min max
    n_samples_per_dim save_directory overwrite world hdir
  refine ⟨g, h1, ?_, ?_⟩
  · have hmem : "predictions_grid.txt" ∈ g.calls.map SaveCall.filename := by
      rw [h3]
      simp
    obtain ⟨c, hc, hname⟩ := List.mem_map.1 hmem
    exact ⟨c, hc, hname⟩
  · intro c hc hname
    rw [h4 c hc hname, predict_snd_of_trained ops fa mp hfa]

/-- Witness of C17: the trained example on the one-point grid `[0]`. -/
theorem saveGridData_predictions_eq_predict_witness :
    ∃ g : GridSaved (List String),
      saveGridData recordingEnv uniformOps trainedExample ⟨1, 1, !![0]⟩ ⟨1, 1, !![1]⟩ [3]
        "out" false [] = some g ∧
      (∃ c ∈ g.calls, c.filename = "predictions_grid.txt") ∧
      ∀ c ∈ g.calls, c.filename = "predictions_grid.txt" →
        c.matrix = SavedData.reals
          (predict uniformOps trainedExample
            (recordingEnv.generateInputsGrid ⟨1, 1, !![0]⟩ ⟨1, 1, !![1]⟩ [3])
            (MatrixXd.sized 0 0)).2 :=
  saveGridData_predictions_eq_predict recordingEnv uniformOps trainedExample exampleModel rfl
    ⟨1, 1, !![0]⟩ ⟨1, 1, !![1]⟩ [3] "out" false [] (by decide) (MatrixXd.sized 0 0)

/-- C18: for a threshold `epsilon > 0` and a kernel whose weights below
`epsilon` are all exactly 0, the normal matrix and the right-hand side of the
pruned path equal those of the dense path, and the pruned solve returns exactly
the dense coefficients. -/
theorem pruned_zero_weights_exact {n p : ℕ} (epsilon : ℚ) (X : Matrix (Fin n) (Fin p) ℚ)
    (targets : Matrix (Fin n) (Fin 1) ℚ) (W_vec : Fin n → ℚ)
    (hε : 0 < epsilon) (hz : ∀ i, W_vec i < epsilon → W_vec i = 0) :
    (X_sub epsilon W_vec X targets)ᵀ * Matrix.diagonal (W_vec_sub epsilon W_vec X targets) *
        X_sub epsilon W_vec X targets = Xᵀ * Matrix.diagonal W_vec * X ∧
    (X_sub epsilon W_vec X targets)ᵀ * Matrix.diagonal (W_vec_sub epsilon W_vec X targets) *
        targets_sub epsilon W_vec X targets = Xᵀ * Matrix.diagonal W_vec * targets ∧
    cur_beta_sub epsilon X targets W_vec = cur_beta X targets W_vec ∧
    fitKernel epsilon X targets W_vec = fitKernel 0 X targets W_vec := by
  have h1 := normal_sub_eq epsilon W_vec X targets hz
  have h2 := rhs_sub_eq epsilon W_vec X targets hz
  have h3 : cur_beta_sub epsilon X targets W_vec = cur_beta X targets W_vec := by
    unfold cur_beta_sub cur_beta
    rw [weightedSolve_eq, weightedSolve_eq, h1, h2]
  refine ⟨h1, h2, h3, ?_⟩
  unfold fitKernel
  rw [if_neg (ne_of_gt hε), if_pos rfl, h3]

/-- Witness of C18: the design matrix and targets of the end-to-end scenario with
the weights 0, 1, 1, 0 and the threshold 1/2. -/
theorem pruned_zero_weights_exact_witness :
    (0 : ℚ) < 1/2 ∧ (∀ i, W4 i < 1/2 → W4 i = 0) ∧
    cur_beta_sub (1/2) (designWithOffset inputs4) targets4 W4 =
      cur_beta (designWithOffset inputs4) targets4 W4 ∧
    fitKernel (1/2) (designWithOffset inputs4) targets4 W4 =
      fitKernel 0 (designWithOffset inputs4) targets4 W4 := by
  have hz : ∀ i, W4 i < 1/2 → W4 i = 0 := by
    intro i
    fin_cases i <;> (simp [W4]; try norm_num)
  exact ⟨by norm_num, hz,
    (pruned_zero_weights_exact (1/2) (designWithOffset inputs4) targets4 W4
      (by norm_num) hz).2.2⟩

/-- C19: on a trained approximator, at an input row whose kernel activations are
non-negative and sum to one, the predicted output lies between the minimum and
the maximum of the line values of the kernels at that row. -/
theorem predict_between_lines (ops : ModelOps) (fa : FunctionApproximatorRLS)
    (mp : ModelParametersRLS) (hfa : fa.model_parameters = some mp)
    (inputs outputs : MatrixXd) (t : Fin inputs.rows)
    (hnonneg : ∀ k, 0 ≤ ops.kernelActivations mp inputs t k)
    (hsum : ∑ k, ops.kernelActivations mp inputs t k = 1) :
    ∃ (hK : (Finset.univ : Finset (Fin (ops.getNumberOfBasisFunctions mp))).Nonempty) (v : ℚ),
      (predict ops fa inputs outputs).2.get? t 0 = some v ∧
      Finset.univ.inf' hK (ops.getLines mp inputs t) ≤ v ∧
      v ≤ Finset.univ.sup' hK (ops.getLines mp inputs t) := by
  have hK : (Finset.univ : Finset (Fin (ops.getNumberOfBasisFunctions mp))).Nonempty := by
    by_contra hne
    rw [Finset.not_nonempty_iff_eq_empty] at hne
    rw [hne, Finset.sum_empty] at hsum
    exact zero_ne_one hsum
  refine ⟨hK, ∑ k, ops.getLines mp inputs t k * ops.kernelActivations mp inputs t k,
    ?_, ?_, ?_⟩
  · rw [predict_snd_of_trained ops fa mp hfa]
    exact rowwiseProductSum_get _ _ t
  · calc Finset.univ.inf' hK (ops.getLines mp inputs t)
        = ∑ k, Finset.univ.inf' hK (ops.getLines mp inputs t) *
            ops.kernelActivations mp inputs t k := by
          rw [← Finset.mul_sum, hsum, mul_one]
      _ ≤ ∑ k, ops.getLines mp inputs t k * ops.kernelActivations mp inputs t k := by
          apply Finset.sum_le_sum
          intro k _
          exact mul_le_mul_of_nonneg_right (Finset.inf'_le _ (Finset.mem_univ k)) (hnonneg k)
  · calc ∑ k, ops.getLines mp inputs t k * ops.kernelActivations mp inputs t k
        ≤ ∑ k, Finset.univ.sup' hK (ops.getLines mp inputs t) *
            ops.kernelActivations mp inputs t k := by
          apply Finset.sum_le_sum
          intro k _
          exact mul_le_mul_of_nonneg_right (Finset.le_sup' _ (Finset.mem_univ k)) (hnonneg k)
      _ = Finset.univ.sup' hK (ops.getLines mp inputs t) := by
          rw [← Finset.mul_sum, hsum, mul_one]

/-- Witness of C19: two kernels with the lines `x` and `3 x + 1`, each of
activation 1/2, at the input 6: the line values are 6 and 19, the prediction is
25/2, strictly between them. -/
theorem predict_between_lines_witness :
    uniformOps.getNumberOfBasisFunctions twoKernelModel = 2 ∧
    uniformOps.getLines twoKernelModel ⟨3, 1, inputs3⟩ (1 : Fin 3) (0 : Fin 2) = 6 ∧
    uniformOps.getLines twoKernelModel ⟨3, 1, inputs3⟩ (1 : Fin 3) (1 : Fin 2) = 19 ∧
    (predict uniformOps trainedTwoKernels ⟨3, 1, inputs3⟩ (MatrixXd.sized 0 0)).2.get?
      (1 : Fin 3) 0 = some (25 / 2) ∧
    ∃ (hK : (Finset.univ : Finset (Fin (uniformOps.getNumberOfBasisFunctions
        twoKernelModel))).Nonempty) (v : ℚ),
      (predict uniformOps trainedTwoKernels ⟨3, 1, inputs3⟩ (MatrixXd.sized 0 0)).2.get?
        (1 : Fin 3) 0 = some v ∧
      Finset.univ.inf' hK (uniformOps.getLines twoKernelModel ⟨3, 1, inputs3⟩ 1) ≤ v ∧
      v ≤ Finset.univ.sup' hK (uniformOps.getLines twoKernelModel ⟨3, 1, inputs3⟩ 1) := by
  have h0 : uniformOps.getLines twoKernelModel ⟨3, 1, inputs3⟩ (1 : Fin 3) (0 : Fin 2) = 6 := by
    simp [uniformOps, lineValue, twoKernelModel, MatrixXd.get?, inputs3]
  have h1 : uniformOps.getLines twoKernelModel ⟨3, 1, inputs3⟩ (1 : Fin 3) (1 : Fin 2) = 19 := by
    simp [uniformOps, lineValue, twoKernelModel, MatrixXd.get?, inputs3]
    norm_num
  have hacts : ∀ k, uniformOps.kernelActivations twoKernelModel ⟨3, 1, inputs3⟩
      (1 : Fin 3) k = 1 / 2 := by
    intro k
    simp [uniformOps, twoKernelModel]
  have hs : ∀ f : Fin (uniformOps.getNumberOfBasisFunctions twoKernelModel) → ℚ,
      ∑ k, f k = f (0 : Fin 2) + f (1 : Fin 2) := fun f => Fin.sum_univ_two f
  refine ⟨rfl, h0, h1, ?_,
    predict_between_lines uniformOps trainedTwoKernels twoKernelModel rfl ⟨3, 1, inputs3⟩
      (MatrixXd.sized 0 0) 1 (fun k => by rw [hacts k]; norm_num)
      (by
        rw [hs, hacts, hacts]
        norm_num)⟩
  rw [predict_snd_of_trained uniformOps trainedTwoKernels twoKernelModel rfl,
    rowwiseProductSum_get _ _ (1 : Fin 3), hs, hacts, hacts, h0, h1]
  norm_num

/-- C20: the dense-path fit is invariant under a positive rescaling of the
weights of a kernel: for `c > 0` and an invertible `Xᵀ diag(w) X`, the solve with
the weights `c * w` returns the coefficient vector of the solve with `w`. -/
theorem dense_fit_scale_invariant {n p : ℕ} (X : Matrix (Fin n) (Fin p) ℚ)
    (targets : Matrix (Fin n) (Fin 1) ℚ) (W_vec : Fin n → ℚ) (c : ℚ)
    (hc : 0 < c) (hdet : (Xᵀ * Matrix.diagonal W_vec * X).det ≠ 0) :
    cur_beta X targets (fun i => c * W_vec i) = cur_beta X targets W_vec ∧
    fitKernel 0 X targets (fun i => c * W_vec i) = fitKernel 0 X targets W_vec := by
  have h : cur_beta X targets (fun i => c * W_vec i) = cur_beta X targets W_vec := by
    unfold cur_beta
    rw [weightedSolve_rescaled X W_vec targets c (ne_of_gt hc) hdet]
  refine ⟨h, ?_⟩
  unfold fitKernel
  rw [if_pos rfl, if_pos rfl, h]

/-- Witness of C20: the end-to-end scenario with all weights 1, rescaled by 3. -/
theorem dense_fit_scale_invariant_witness :
    (0 : ℚ) < 3 ∧
    cur_beta (designWithOffset inputs4) targets4 (fun _ => 3 * 1) =
      cur_beta (designWithOffset inputs4) targets4 (fun _ => 1) ∧
    fitKernel 0 (designWithOffset inputs4) targets4 (fun _ => 3 * 1) =
      fitKernel 0 (designWithOffset inputs4) targets4 (fun _ => 1) :=
  ⟨by norm_num,
    dense_fit_scale_invariant (designWithOffset inputs4) targets4 (fun _ => 1) 3
      (by norm_num) det_normal_inputs4⟩

end DmpBbo
